import Mathlib

/-!
Verification of `distributed_csv.cpp`.

A shallow embedding of the per-column statistics pipeline of
`src/distributed_csv.cpp`: the Welford accumulator, the column statistics, the
quote-aware tokenizer, the numeric classifier, the chunk processor, the reducer
and the round-robin partitioning done by `main`.

Modelling conventions.

* `long double` is read as exact arithmetic over `ℚ`.  The two sentinels of
  `ColStats` (`+infinity` for `min_val`, `-infinity` for `max_val`) are the top
  of `WithTop ℚ` and the bottom of `WithBot ℚ`.
* `uint64_t` and `size_t` counters are `Nat`: each of them counts lines of a
  vector held in memory, so none of them can wrap.
* `std::string` is `List Char` and `std::vector<T>` is `List T`.  A byte of a
  source string is one character; the theorems hold for every character.
* `std::stold` is a library function, not part of the repository.  Every
  definition that calls it takes it as the parameter `stold`: given the text it
  returns `none` when the library call throws (no conversion, out of range) and
  `some (v, idx)` when it converts the first `idx` characters to the value `v`.
  `stold_dec` is a concrete instance for plain decimal text, used to evaluate
  examples.
* An out-of-bounds `operator[]` on a vector is undefined behaviour; the reducer
  `merge_partials`, whose column accesses are not guarded by the size of the
  vector they index, returns `none` in that case.
-/

namespace DistributedCsv

/-! ## Welford accumulator (source lines 16-45) -/

/-- The running state of Welford's algorithm: number of observations, running
mean and running sum of squared deviations. -/
structure Welford where
  n : Nat := 0
  mean : ℚ := 0
  M2 : ℚ := 0
  deriving DecidableEq

/-- Method `Welford::add` (source lines 21-27). -/
def Welford.add (w : Welford) (x : ℚ) : Welford :=
  let n := w.n + 1
  let delta := x - w.mean
  let mean := w.mean + delta / (n : ℚ)
  let delta2 := x - mean
  { n := n, mean := mean, M2 := w.M2 + delta * delta2 }

/-- Method `Welford::variance` (source line 29). -/
def Welford.variance (w : Welford) : ℚ :=
  if w.n > 1 then w.M2 / ((w.n - 1 : Nat) : ℚ) else 0

/-- Method `Welford::merge` (source lines 32-44). -/
def Welford.merge (w other : Welford) : Welford :=
  if other.n = 0 then w
  else if w.n = 0 then other
  else
    let delta := other.mean - w.mean
    let total_n : ℚ := ((w.n + other.n : Nat) : ℚ)
    let new_mean := (w.mean * (w.n : ℚ) + other.mean * (other.n : ℚ)) / total_n
    let new_M2 := w.M2 + other.M2 + delta * delta * (w.n : ℚ) * (other.n : ℚ) / total_n
    { n := w.n + other.n, mean := new_mean, M2 := new_M2 }

/-- The state reached from the initial state by `add` over `xs`, in order. -/
def Welford.ofList (xs : List ℚ) : Welford :=
  xs.foldl Welford.add {}

/-- Sum of the squares of a list of numbers. -/
def sumSq (xs : List ℚ) : ℚ :=
  (xs.map fun x => x * x).sum

/-! ## Column statistics (source lines 47-75) -/

/-- Per-column statistics.  The defaults are the member initialisers of the
source: zero counters, zero sum, `+infinity` and `-infinity` sentinels. -/
structure ColStats where
  count : Nat := 0
  null_count : Nat := 0
  non_numeric : Nat := 0
  sum : ℚ := 0
  min_val : WithTop ℚ := ⊤
  max_val : WithBot ℚ := ⊥
  w : Welford := {}
  deriving DecidableEq

/-- Method `ColStats::add_numeric` (source lines 56-62). -/
def ColStats.add_numeric (s : ColStats) (x : ℚ) : ColStats :=
  { s with
    count := s.count + 1
    sum := s.sum + x
    min_val := if (x : WithTop ℚ) < s.min_val then (x : WithTop ℚ) else s.min_val
    max_val := if (x : WithBot ℚ) > s.max_val then (x : WithBot ℚ) else s.max_val
    w := s.w.add x }

/-- Method `ColStats::merge` (source lines 64-74). -/
def ColStats.merge (s other : ColStats) : ColStats :=
  { count := s.count + other.count
    null_count := s.null_count + other.null_count
    non_numeric := s.non_numeric + other.non_numeric
    sum := s.sum + other.sum
    min_val :=
      if other.count > 0 then (if s.min_val > other.min_val then other.min_val else s.min_val)
      else s.min_val
    max_val :=
      if other.count > 0 then (if s.max_val < other.max_val then other.max_val else s.max_val)
      else s.max_val
    w := s.w.merge other.w }

/-! ## Tokenizer (source lines 78-97) -/

/-- The double-quote character. -/
def dq : Char := Char.ofNat 34

/-- The loop of `parse_csv_line` over the characters not yet read, with the
loop state `out`, `cur`, `in_quotes`.  The look-ahead `line[i+1] == dq` of the
source is the match on the rest of the line; after the loop `cur` is pushed. -/
def parse_loop : List Char → List (List Char) → List Char → Bool → List (List Char)
  | [], out, cur, _ => out ++ [cur]
  | c :: rest, out, cur, true =>
    if c = dq then
      match rest with
      | d :: rest2 =>
        if d = dq then parse_loop rest2 out (cur ++ [dq]) true
        else parse_loop (d :: rest2) out cur false
      | [] => parse_loop [] out cur false
    else parse_loop rest out (cur ++ [c]) true
  | c :: rest, out, cur, false =>
    if c = dq then parse_loop rest out cur true
    else if c = ',' then parse_loop rest (out ++ [cur]) [] false
    else parse_loop rest out (cur ++ [c]) false

/-- Function `parse_csv_line`: the loop started with no field pushed, an empty
current field and `in_quotes = false`. -/
def parse_csv_line (line : List Char) : List (List Char) :=
  parse_loop line [] [] false

/-- The value of `in_quotes` when the loop of `parse_csv_line` has read the
whole line, started with the given value. -/
def scan_in_quotes : List Char → Bool → Bool
  | [], q => q
  | c :: rest, true =>
    if c = dq then
      match rest with
      | d :: rest2 => if d = dq then scan_in_quotes rest2 true else scan_in_quotes (d :: rest2) false
      | [] => false
    else scan_in_quotes rest true
  | c :: rest, false =>
    if c = dq then scan_in_quotes rest true else scan_in_quotes rest false

/-- A field written between double quotes with every double quote doubled. -/
def quote_field (f : List Char) : List Char :=
  dq :: (f.flatMap fun c => if c = dq then [dq, dq] else [c]) ++ [dq]

/-- The quoted fields joined with commas. -/
def quote_line (fields : List (List Char)) : List Char :=
  List.intercalate [','] (fields.map quote_field)

/-! ## Numeric classifier (source lines 99-114) -/

/-- Function `isspace` of the C locale: space, `\t`, `\n`, `\v`, `\f`, `\r`. -/
def isspace (c : Char) : Bool :=
  c.toNat = 32 || (9 ≤ c.toNat && c.toNat ≤ 13)

/-- The part of the field that `is_number` passes to `stold`: `i` is advanced
over leading white space, `j` is moved back over trailing white space, and the
result is `s.substr(i, j - i)`; `none` when `i >= j`. -/
def trim (s : List Char) : Option (List Char) :=
  let i := (s.takeWhile isspace).length
  let j := s.length - ((s.drop i).reverse.takeWhile isspace).length
  if i ≥ j then none else some ((s.drop i).take (j - i))

/-- Function `is_number`: `some v` when the source returns `true` with `out = v`, `none`
when it returns `false` (white space only, `stold` throws, or `stold` stops
before the end of the trimmed text). -/
def is_number (stold : List Char → Option (ℚ × Nat)) (s : List Char) : Option ℚ :=
  match trim s with
  | none => none
  | some t =>
    match stold t with
    | none => none
    | some (v, idx) => if idx = t.length then some v else none

/-- Value of a run of decimal digits. -/
def digits_value (ds : List Char) : Nat :=
  ds.foldl (fun a c => 10 * a + (c.toNat - 48)) 0

/-- An optional sign: whether it is a minus, how many characters it takes, and
the rest of the text. -/
def read_sign : List Char → Bool × Nat × List Char
  | '-' :: r => (true, 1, r)
  | '+' :: r => (false, 1, r)
  | r => (false, 0, r)

/-- The exponent part of a decimal literal: the exponent and the number of
characters it takes (zero when there is no well-formed exponent). -/
def read_exponent : List Char → ℤ × Nat
  | [] => (0, 0)
  | e :: r =>
    if e = 'e' ∨ e = 'E' then
      let (neg, sl, r1) := read_sign r
      let ed := r1.takeWhile Char.isDigit
      if ed = [] then (0, 0)
      else ((if neg then -(digits_value ed : ℤ) else (digits_value ed : ℤ)), 1 + sl + ed.length)
    else (0, 0)

/-- A concrete `stold` for decimal text, following the C library grammar
`[white space][sign]digits[.digits][(e|E)[sign]digits]` with exact values: it
fails when there is no digit in the mantissa, and otherwise returns the value
and the number of characters converted.  The hexadecimal, `INF` and `NAN`
forms of the library function and its range check are not covered. -/
def stold_dec (t : List Char) : Option (ℚ × Nat) :=
  let ws := (t.takeWhile isspace).length
  let (neg, sl, r1) := read_sign (t.dropWhile isspace)
  let ip := r1.takeWhile Char.isDigit
  let r2 := r1.dropWhile Char.isDigit
  let (fp, dl, r3) :=
    match r2 with
    | '.' :: r => (r.takeWhile Char.isDigit, 1, r.dropWhile Char.isDigit)
    | _ => ([], 0, r2)
  if ip = [] ∧ fp = [] then none
  else
    let mant : ℚ := (digits_value (ip ++ fp) : ℚ) / (10 : ℚ) ^ fp.length
    let (ex, el) := read_exponent r3
    some ((if neg then -mant else mant) * (10 : ℚ) ^ ex, ws + sl + ip.length + dl + fp.length + el)

/-! ## Chunk processor (source lines 116-143) -/

/-- The result of one worker. -/
structure PartialResult where
  cols : List ColStats := []
  rows_processed : Nat := 0
  worker_id : String := ""
  deriving DecidableEq

/-- The body of the column loop of `process_chunk` for one cell: an empty cell
counts as null, a cell accepted by `is_number` is added, any other cell counts
as non-numeric. -/
def process_cell (stold : List Char → Option (ℚ × Nat)) (cell : List Char) (s : ColStats) :
    ColStats :=
  if cell.isEmpty then { s with null_count := s.null_count + 1 }
  else
    match is_number stold cell with
    | some val => s.add_numeric val
    | none => { s with non_numeric := s.non_numeric + 1 }

/-- The cell read for column `c`: `c < cells.size() ? cells[c] : ""`. -/
def cell_at (cells : List (List Char)) (c : Nat) : List Char :=
  if c < cells.length then cells.getD c [] else []

/-- The column loop of `process_chunk` over the tokenized row `cells`: for
`c = 0 .. ncols - 1` the cell `cell_at cells c` is classified and `cols[c]` is
updated.  In `process_chunk` the vector `cols` has been resized to `ncols`, so
every `cols[c]` of the loop is in bounds. -/
def process_row (stold : List Char → Option (ℚ × Nat)) (ncols : Nat) (cells : List (List Char))
    (cols : List ColStats) : List ColStats :=
  (List.range ncols).foldl
    (fun cols c => cols.modify (process_cell stold (cell_at cells c)) c)
    cols

/-- The body of the line loop of `process_chunk`. -/
def process_line (stold : List Char → Option (ℚ × Nat)) (ncols : Nat) (pr : PartialResult)
    (line : List Char) : PartialResult :=
  { pr with
    cols := process_row stold ncols (parse_csv_line line) pr.cols
    rows_processed := pr.rows_processed + 1 }

/-- Function `process_chunk`: the columns are resized to `ncols` default
statistics and the lines are processed in order. -/
def process_chunk (stold : List Char → Option (ℚ × Nat)) (lines : List (List Char)) (ncols : Nat)
    (worker_id : String) : PartialResult :=
  lines.foldl (process_line stold ncols)
    { cols := List.replicate ncols {}, rows_processed := 0, worker_id := worker_id }

/-! ## Reducer (source lines 145-156) -/

/-- The inner loop of `merge_partials`: `agg.cols[i].merge(p.cols[i])` for
`i = 0 .. ncols - 1`.  `agg.cols` has been resized to `ncols`; `p.cols[i]` is
read without a check, so the loop fails when `p` has fewer columns. -/
def merge_cols (ncols : Nat) (agg : List ColStats) (p : List ColStats) :
    Option (List ColStats) :=
  (List.range ncols).foldlM
    (fun agg i =>
      match p.get? i with
      | some o => some (agg.modify (fun a => a.merge o) i)
      | none => none)
    agg

/-- The body of the outer loop of `merge_partials`. -/
def merge_step (ncols : Nat) (agg : PartialResult) (p : PartialResult) : Option PartialResult :=
  match merge_cols ncols agg.cols p.cols with
  | some cols => some { agg with cols := cols, rows_processed := agg.rows_processed + p.rows_processed }
  | none => none

/-- Function `merge_partials`: the default result for no partial result;
otherwise `ncols` is the number of columns of the first partial result and every
partial result is merged into `ncols` default statistics. -/
def merge_partials (partials : List PartialResult) : Option PartialResult :=
  match partials with
  | [] => some {}
  | p0 :: _ =>
    let ncols := p0.cols.length
    partials.foldlM (merge_step ncols) { cols := List.replicate ncols {}, rows_processed := 0 }

/-! ## Partitioning and dispatch (source lines 165-209 of `main`) -/

/-- The clamp of the requested worker count: `if (workers <= 0) workers = 1`. -/
def clamp_workers (workers : Int) : Nat :=
  if workers ≤ 0 then 1 else workers.toNat

/-- The round-robin split: `chunks[i % workers].push_back(all_lines[i])`. -/
def split_chunks (workers : Nat) (all_lines : List (List Char)) : List (List (List Char)) :=
  all_lines.enum.foldl
    (fun chunks il => chunks.modify (fun ch => ch ++ [il.2]) (il.1 % workers))
    (List.replicate workers [])

/-- The partial results after the join: slot `w` holds
`process_chunk(chunks[w], ncols, "worker-" + to_string(w))`.  Each thread writes
its own slot only, so the joined vector does not depend on the schedule. -/
def run_workers (stold : List Char → Option (ℚ × Nat)) (workers ncols : Nat)
    (all_lines : List (List Char)) : List PartialResult :=
  let chunks := split_chunks workers all_lines
  (List.range workers).map fun w =>
    process_chunk stold (chunks.getD w []) ncols ("worker-" ++ toString w)

/-- The final result of `main` for a clamped worker count: split, process every
chunk, reduce. -/
def aggregate (stold : List Char → Option (ℚ × Nat)) (workers ncols : Nat)
    (all_lines : List (List Char)) : Option PartialResult :=
  merge_partials (run_workers stold workers ncols all_lines)

/-! ## Specification-level descriptions of a column -/

/-- The text with its leading and its trailing white space removed. -/
def strip (s : List Char) : List Char :=
  ((s.dropWhile isspace).reverse.dropWhile isspace).reverse

/-- The cells of column `c` over a list of lines, in line order. -/
def column (c : Nat) (lines : List (List Char)) : List (List Char) :=
  lines.map fun line => cell_at (parse_csv_line line) c

/-- The values of the cells accepted by `is_number`, in order. -/
def numeric_values (stold : List Char → Option (ℚ × Nat)) (cells : List (List Char)) : List ℚ :=
  cells.filterMap (is_number stold)

/-- Minimum of a list of numbers, `+infinity` for the empty list. -/
def list_min (xs : List ℚ) : WithTop ℚ :=
  List.foldr (fun (x : ℚ) (m : WithTop ℚ) => min (x : WithTop ℚ) m) ⊤ xs

/-- Maximum of a list of numbers, `-infinity` for the empty list. -/
def list_max (xs : List ℚ) : WithBot ℚ :=
  List.foldr (fun (x : ℚ) (m : WithBot ℚ) => max (x : WithBot ℚ) m) ⊥ xs

/-- The statistics of a list of cells written down directly: counts of the
three classes, sum, minimum and maximum of the accepted values, and the Welford
state of the accepted values. -/
def summary (stold : List Char → Option (ℚ × Nat)) (cells : List (List Char)) : ColStats :=
  { count := (numeric_values stold cells).length
    null_count := cells.countP fun cell => cell.isEmpty
    non_numeric := cells.countP fun cell => !cell.isEmpty && (is_number stold cell).isNone
    sum := (numeric_values stold cells).sum
    min_val := list_min (numeric_values stold cells)
    max_val := list_max (numeric_values stold cells)
    w := Welford.ofList (numeric_values stold cells) }

/-- The column statistics of a list of lines written down directly. -/
def cols_of (stold : List Char → Option (ℚ × Nat)) (ncols : Nat) (lines : List (List Char)) :
    List ColStats :=
  (List.range ncols).map fun c => summary stold (column c lines)

/-- The inner loop of `merge_partials` with every read of `p` in bounds. -/
def merge_cols_total (ncols : Nat) (agg : List ColStats) (p : List ColStats) : List ColStats :=
  (List.range ncols).foldl
    (fun agg i => agg.modify (fun a => a.merge (p.getD i {})) i)
    agg

/-- The body of the outer loop of `merge_partials` with every read in bounds. -/
def merge_step_total (ncols : Nat) (agg : PartialResult) (p : PartialResult) : PartialResult :=
  { agg with
    cols := merge_cols_total ncols agg.cols p.cols
    rows_processed := agg.rows_processed + p.rows_processed }

/-- The invariant of a partial result: in every column the three class counts
add up to the number of rows processed. -/
def rows_accounted (p : PartialResult) : Prop :=
  ∀ s ∈ p.cols, s.count + s.null_count + s.non_numeric = p.rows_processed

instance rows_accounted_decidable (p : PartialResult) : Decidable (rows_accounted p) := by
  unfold rows_accounted
  infer_instance

/-! ## Specification-level descriptions of reachable statistics -/

/-- Sum of the squared deviations of a list of numbers from `m`. -/
def sumSqDev (m : ℚ) (xs : List ℚ) : ℚ :=
  (xs.map fun x => (x - m) * (x - m)).sum

/-- The Welford states reachable from the initial state by `add` and by `merge`
of reachable states. -/
inductive Welford.Reachable : Welford → Prop
  | init : Welford.Reachable {}
  | add (w : Welford) (x : ℚ) : Welford.Reachable w → Welford.Reachable (w.add x)
  | merge (a b : Welford) : Welford.Reachable a → Welford.Reachable b →
      Welford.Reachable (a.merge b)

/-- The column statistics reachable from the default value by `add_numeric`, by
the two counter increments of `process_chunk` and by `merge` of reachable
values. -/
inductive ColStats.Reachable : ColStats → Prop
  | init : ColStats.Reachable {}
  | add_numeric (s : ColStats) (x : ℚ) : ColStats.Reachable s →
      ColStats.Reachable (s.add_numeric x)
  | null (s : ColStats) : ColStats.Reachable s →
      ColStats.Reachable { s with null_count := s.null_count + 1 }
  | non_numeric (s : ColStats) : ColStats.Reachable s →
      ColStats.Reachable { s with non_numeric := s.non_numeric + 1 }
  | merge (a b : ColStats) : ColStats.Reachable a → ColStats.Reachable b →
      ColStats.Reachable (a.merge b)

/-- The statistics of a column written down from the list of its accepted
values and its two other counters. -/
def stats_of (xs : List ℚ) (nulls non_num : Nat) : ColStats :=
  { count := xs.length
    null_count := nulls
    non_numeric := non_num
    sum := xs.sum
    min_val := list_min xs
    max_val := list_max xs
    w := Welford.ofList xs }

/-- The rows whose index `i` satisfies `i mod k = j`, in increasing index
order. -/
def partition_rows (k j : Nat) (rows : List (List Char)) : List (List Char) :=
  (rows.enum.filter fun il => il.1 % k = j).map fun il => il.2

/-! # Properties -/

/-! ## Welford: the state after a list of observations -/

theorem Welford.ofList_append_singleton (xs : List ℚ) (x : ℚ) :
    Welford.ofList (xs ++ [x]) = (Welford.ofList xs).add x := by
  simp [Welford.ofList, List.foldl_append]

/-- The state after `xs` in closed form: `n` is the length, `n * mean` the sum
and `M2` the sum of squares minus `mean * sum`. -/
theorem Welford.ofList_moments (xs : List ℚ) :
    (Welford.ofList xs).n = xs.length ∧
    ((xs.length : ℚ) * (Welford.ofList xs).mean = xs.sum) ∧
    (Welford.ofList xs).M2 = sumSq xs - (Welford.ofList xs).mean * xs.sum := by
  induction xs using List.reverseRecOn with
  | nil => simp [Welford.ofList, sumSq]
  | append_singleton xs x ih =>
    obtain ⟨hn, hm, hM⟩ := ih
    rw [Welford.ofList_append_singleton]
    have hpos : ((xs.length : ℚ) + 1) ≠ 0 := by positivity
    refine ⟨by simp [Welford.add, hn], ?_, ?_⟩
    · simp only [Welford.add, hn, List.length_append, List.length_singleton, List.sum_append,
        List.sum_singleton, Nat.cast_add, Nat.cast_one]
      rw [← hm]
      field_simp
      ring
    · simp only [Welford.add, hn, hM, sumSq, List.map_append, List.sum_append, List.map_cons,
        List.map_nil, List.sum_singleton, List.sum_cons, List.sum_nil, Nat.cast_add, Nat.cast_one]
      rw [← hm]
      field_simp
      ring

theorem Welford.eq_of_fields {a b : Welford} (hn : a.n = b.n) (hm : a.mean = b.mean)
    (hM : a.M2 = b.M2) : a = b := by
  cases a
  cases b
  simp_all

/-- Merging the states of two lists gives the state of their concatenation. -/
theorem Welford.merge_ofList (xs ys : List ℚ) :
    (Welford.ofList xs).merge (Welford.ofList ys) = Welford.ofList (xs ++ ys) := by
  obtain ⟨hnA, hmA, hMA⟩ := Welford.ofList_moments xs
  obtain ⟨hnB, hmB, hMB⟩ := Welford.ofList_moments ys
  obtain ⟨hnC, hmC, hMC⟩ := Welford.ofList_moments (xs ++ ys)
  by_cases hy : ys.length = 0
  · have : ys = [] := List.length_eq_zero.mp hy
    subst this
    simp [Welford.merge, hnB]
  by_cases hx : xs.length = 0
  · have : xs = [] := List.length_eq_zero.mp hx
    subst this
    simp [Welford.merge, hnA, hnB, hy]
  have ha : (xs.length : ℚ) ≠ 0 := by exact_mod_cast hx
  have hb : (ys.length : ℚ) ≠ 0 := by exact_mod_cast hy
  have hab : (xs.length : ℚ) + (ys.length : ℚ) ≠ 0 := by positivity
  have hCmean : (Welford.ofList (xs ++ ys)).mean =
      (xs.sum + ys.sum) / ((xs.length : ℚ) + (ys.length : ℚ)) := by
    rw [eq_div_iff hab, ← List.sum_append, ← hmC]
    simp only [List.length_append, Nat.cast_add]
    ring
  have hmerge : (Welford.ofList xs).merge (Welford.ofList ys) =
      { n := xs.length + ys.length
        mean := ((Welford.ofList xs).mean * (xs.length : ℚ) +
          (Welford.ofList ys).mean * (ys.length : ℚ)) / ((xs.length : ℚ) + (ys.length : ℚ))
        M2 := (Welford.ofList xs).M2 + (Welford.ofList ys).M2 +
          ((Welford.ofList ys).mean - (Welford.ofList xs).mean) *
            ((Welford.ofList ys).mean - (Welford.ofList xs).mean) * (xs.length : ℚ) *
            (ys.length : ℚ) / ((xs.length : ℚ) + (ys.length : ℚ)) } := by
    simp [Welford.merge, hnA, hnB, hx, hy]
  rw [hmerge]
  apply Welford.eq_of_fields
  · simp [hnC]
  · simp only [hCmean, ← hmA, ← hmB]
    ring
  · simp only [hMC, hMA, hMB, hCmean, sumSq, List.map_append, List.sum_append, ← hmA, ← hmB]
    field_simp
    ring

/-- C1: for all lists `xs` and `ys` of numbers (exact arithmetic), if `A` is
the Welford state reached from the initial state `(n, mean, M2) = (0, 0, 0)` by
`add` over `xs` and `B` the state reached the same way over `ys`, then
`A.merge(B)` is the state reached from the initial state by `add` over
`xs ++ ys`: the same `n`, the same `mean` and the same `M2`. -/
theorem welford_merge_eq_concat (xs ys : List ℚ) :
    Welford.merge (List.foldl Welford.add (Welford.mk 0 0 0) xs)
        (List.foldl Welford.add (Welford.mk 0 0 0) ys) =
      List.foldl Welford.add (Welford.mk 0 0 0) (xs ++ ys) :=
  Welford.merge_ofList xs ys

/-- The state after a list of observations does not depend on their order. -/
theorem Welford.ofList_perm {xs ys : List ℚ} (h : xs.Perm ys) :
    Welford.ofList xs = Welford.ofList ys := by
  obtain ⟨hnA, hmA, hMA⟩ := Welford.ofList_moments xs
  obtain ⟨hnB, hmB, hMB⟩ := Welford.ofList_moments ys
  have hlen : xs.length = ys.length := h.length_eq
  have hsum : xs.sum = ys.sum := h.sum_eq
  have hsq : sumSq xs = sumSq ys := (h.map _).sum_eq
  by_cases hx : xs.length = 0
  · have h1 : xs = [] := List.length_eq_zero.mp hx
    have h2 : ys = [] := List.length_eq_zero.mp (hlen ▸ hx)
    rw [h1, h2]
  have ha : (xs.length : ℚ) ≠ 0 := by exact_mod_cast hx
  have hmean : (Welford.ofList xs).mean = (Welford.ofList ys).mean := by
    have : (xs.length : ℚ) * (Welford.ofList xs).mean = (xs.length : ℚ) * (Welford.ofList ys).mean := by
      rw [hmA, hlen, hmB, hsum]
    exact mul_left_cancel₀ ha this
  apply Welford.eq_of_fields
  · rw [hnA, hnB, hlen]
  · exact hmean
  · rw [hMA, hMB, hmean, hsum, hsq]

/-! ## Minimum and maximum of the accepted values -/

theorem list_min_append (xs ys : List ℚ) :
    list_min (xs ++ ys) = min (list_min xs) (list_min ys) := by
  induction xs with
  | nil => simp [list_min]
  | cons x xs ih =>
    simp only [list_min, List.cons_append, List.foldr_cons] at ih ⊢
    rw [ih, min_assoc]

theorem list_max_append (xs ys : List ℚ) :
    list_max (xs ++ ys) = max (list_max xs) (list_max ys) := by
  induction xs with
  | nil => simp [list_max]
  | cons x xs ih =>
    simp only [list_max, List.cons_append, List.foldr_cons] at ih ⊢
    rw [ih, max_assoc]

theorem list_min_perm {xs ys : List ℚ} (h : xs.Perm ys) : list_min xs = list_min ys := by
  induction h with
  | nil => rfl
  | cons x _ ih => simp only [list_min, List.foldr_cons] at ih ⊢; rw [ih]
  | swap x y l => simp only [list_min, List.foldr_cons]; rw [min_left_comm]
  | trans _ _ ih1 ih2 => exact ih1.trans ih2

theorem list_max_perm {xs ys : List ℚ} (h : xs.Perm ys) : list_max xs = list_max ys := by
  induction h with
  | nil => rfl
  | cons x _ ih => simp only [list_max, List.foldr_cons] at ih ⊢; rw [ih]
  | swap x y l => simp only [list_max, List.foldr_cons]; rw [max_left_comm]
  | trans _ _ ih1 ih2 => exact ih1.trans ih2

/-! ## A column as a fold, and its closed form -/

theorem is_number_nil (stold : List Char → Option (ℚ × Nat)) : is_number stold [] = none := by
  simp [is_number, trim]

theorem numeric_values_append (stold : List Char → Option (ℚ × Nat)) (xs ys : List (List Char)) :
    numeric_values stold (xs ++ ys) = numeric_values stold xs ++ numeric_values stold ys := by
  simp [numeric_values, List.filterMap_append]

theorem summary_nil (stold : List Char → Option (ℚ × Nat)) : summary stold [] = {} := by
  simp [summary, numeric_values, list_min, list_max, Welford.ofList]

/-- One step of the column loop on the closed form. -/
theorem process_cell_summary (stold : List Char → Option (ℚ × Nat)) (cells : List (List Char))
    (cell : List Char) :
    process_cell stold cell (summary stold cells) = summary stold (cells ++ [cell]) := by
  unfold process_cell
  by_cases he : cell = []
  · subst he
    simp [summary, numeric_values_append, numeric_values, is_number_nil, List.countP_append]
  · have he2 : cell.isEmpty = false := by
      cases cell with
      | nil => exact absurd rfl he
      | cons _ _ => rfl
    rw [if_neg (by simp [he2])]
    cases hnum : is_number stold cell with
    | none =>
      simp [summary, numeric_values_append, numeric_values, hnum, List.countP_append, he2]
    | some v =>
      have hv : numeric_values stold [cell] = [v] := by simp [numeric_values, hnum]
      simp only [summary, ColStats.add_numeric, numeric_values_append, hv, List.length_append,
        List.length_singleton, List.sum_append, List.sum_singleton, list_min_append,
        list_max_append, Welford.ofList_append_singleton, List.countP_append]
      have h1 : list_min [v] = (v : WithTop ℚ) := by simp [list_min]
      have h2 : list_max [v] = (v : WithBot ℚ) := by simp [list_max]
      have h3 : List.countP (fun cell => cell.isEmpty) [cell] = 0 := by simp [he2]
      have h4 : List.countP (fun cell => !cell.isEmpty && (is_number stold cell).isNone) [cell]
          = 0 := by simp [hnum]
      rw [h1, h2, h3, h4]
      congr 1
      · by_cases hlt : (v : WithTop ℚ) < list_min (numeric_values stold cells)
        · rw [if_pos hlt, min_eq_right hlt.le]
        · rw [if_neg hlt, min_eq_left (not_lt.mp hlt)]
      · by_cases hlt : (v : WithBot ℚ) > list_max (numeric_values stold cells)
        · rw [if_pos hlt, max_eq_right hlt.le]
        · rw [if_neg hlt, max_eq_left (not_lt.mp hlt)]

/-- The column loop over a list of cells, started from the default statistics,
ends in the closed form. -/
theorem foldl_process_cell (stold : List Char → Option (ℚ × Nat)) (cells : List (List Char)) :
    cells.foldl (fun s cell => process_cell stold cell s) {} = summary stold cells := by
  induction cells using List.reverseRecOn with
  | nil => simp [summary_nil]
  | append_singleton cells cell ih =>
    rw [List.foldl_append, ih]
    simp [process_cell_summary]

/-- Merging two closed forms with `ColStats::merge` gives the closed form of the
concatenation. -/
theorem summary_merge (stold : List Char → Option (ℚ × Nat)) (xs ys : List (List Char)) :
    (summary stold xs).merge (summary stold ys) = summary stold (xs ++ ys) := by
  simp only [summary, ColStats.merge, numeric_values_append, List.length_append, List.sum_append,
    list_min_append, list_max_append, Welford.merge_ofList, List.countP_append]
  congr 1
  · by_cases hc : (numeric_values stold ys).length > 0
    · rw [if_pos hc]
      by_cases hlt : list_min (numeric_values stold xs) > list_min (numeric_values stold ys)
      · rw [if_pos hlt, min_eq_right hlt.le]
      · rw [if_neg hlt, min_eq_left (not_lt.mp hlt)]
    · rw [if_neg hc]
      have : numeric_values stold ys = [] := List.length_eq_zero.mp (by omega)
      simp [this, list_min]
  · by_cases hc : (numeric_values stold ys).length > 0
    · rw [if_pos hc]
      by_cases hlt : list_max (numeric_values stold xs) < list_max (numeric_values stold ys)
      · rw [if_pos hlt, max_eq_right hlt.le]
      · rw [if_neg hlt, max_eq_left (not_lt.mp hlt)]
    · rw [if_neg hc]
      have : numeric_values stold ys = [] := List.length_eq_zero.mp (by omega)
      simp [this, list_max]

/-- The closed form does not depend on the order of the cells. -/
theorem summary_perm (stold : List Char → Option (ℚ × Nat)) {xs ys : List (List Char)}
    (h : xs.Perm ys) : summary stold xs = summary stold ys := by
  have hv : (numeric_values stold xs).Perm (numeric_values stold ys) := h.filterMap _
  simp only [summary, hv.length_eq, hv.sum_eq, list_min_perm hv, list_max_perm hv,
    Welford.ofList_perm hv, h.countP_eq]

/-! ## Index loops over a vector -/

theorem foldl_modify_range_length {α : Type} (f : Nat → α → α) (n : Nat) (l : List α) :
    ((List.range n).foldl (fun l c => l.modify (f c) c) l).length = l.length := by
  induction n with
  | zero => simp
  | succ n ih => simp [List.range_succ, List.foldl_append, ih]

/-- A loop `for c < n: l[c] = f c l[c]` updates exactly the first `n` slots. -/
theorem foldl_modify_range_getElem? {α : Type} (f : Nat → α → α) (n : Nat) (l : List α)
    (i : Nat) :
    ((List.range n).foldl (fun l c => l.modify (f c) c) l)[i]? =
      if i < n then (l[i]?).map (f i) else l[i]? := by
  induction n with
  | zero => simp
  | succ n ih =>
    rw [List.range_succ, List.foldl_append]
    simp only [List.foldl_cons, List.foldl_nil]
    rw [List.getElem?_modify, ih]
    by_cases h1 : i < n
    · have h2 : n ≠ i := by omega
      have h3 : i < n + 1 := by omega
      simp [h1, h2, h3]
    · by_cases h2 : n = i
      · subst h2
        cases hl : l[n]? <;> simp [hl]
      · have h3 : ¬ i < n + 1 := by omega
        cases hl : l[i]? <;> simp [h1, h2, h3, hl]

theorem foldl_modify_range_map {α : Type} (f : Nat → α → α) (n : Nat) (F : Nat → α) :
    (List.range n).foldl (fun l c => l.modify (f c) c) ((List.range n).map F) =
      (List.range n).map fun c => f c (F c) := by
  apply List.ext_getElem?
  intro i
  rw [foldl_modify_range_getElem?]
  by_cases h : i < n
  · simp [h, List.getElem?_range]
  · have h2 : (List.range n)[i]? = none := by
      apply List.getElem?_eq_none
      simp
      omega
    simp [h, h2]

theorem replicate_eq_map_range {α : Type} (n : Nat) (a : α) :
    List.replicate n a = (List.range n).map fun _ => a := by
  apply List.ext_getElem?
  intro i
  by_cases h : i < n
  · simp [h, List.getElem?_range, List.getElem?_replicate]
  · have h2 : n ≤ i := by omega
    simp [h, h2, List.getElem?_replicate]

/-! ## The chunk processor in closed form -/

theorem column_append (c : Nat) (xs ys : List (List Char)) :
    column c (xs ++ ys) = column c xs ++ column c ys := by
  simp [column]

theorem cols_of_nil (stold : List Char → Option (ℚ × Nat)) (ncols : Nat) :
    cols_of stold ncols [] = List.replicate ncols {} := by
  rw [replicate_eq_map_range]
  simp [cols_of, column, summary_nil]

/-- One row applied to the closed form of the lines before it. -/
theorem process_row_cols_of (stold : List Char → Option (ℚ × Nat)) (ncols : Nat)
    (lines : List (List Char)) (line : List Char) :
    process_row stold ncols (parse_csv_line line) (cols_of stold ncols lines) =
      cols_of stold ncols (lines ++ [line]) := by
  unfold process_row cols_of
  rw [foldl_modify_range_map (fun c => process_cell stold (cell_at (parse_csv_line line) c))]
  apply List.map_congr_left
  intro c _
  rw [process_cell_summary, column_append]
  rfl

/-- The chunk processor returns the closed form of every column and the number of
lines. -/
theorem process_chunk_eq (stold : List Char → Option (ℚ × Nat)) (lines : List (List Char))
    (ncols : Nat) (worker_id : String) :
    process_chunk stold lines ncols worker_id =
      { cols := cols_of stold ncols lines, rows_processed := lines.length,
        worker_id := worker_id } := by
  induction lines using List.reverseRecOn with
  | nil => simp [process_chunk, cols_of_nil]
  | append_singleton lines line ih =>
    unfold process_chunk at ih ⊢
    rw [List.foldl_append, ih]
    simp [process_line, process_row_cols_of]

/-! ## The reducer -/

/-- The inner loop of the reducer succeeds when `p` has at least `ncols`
columns. -/
theorem merge_cols_eq (ncols : Nat) (agg p : List ColStats) (h : ncols ≤ p.length) :
    merge_cols ncols agg p = some (merge_cols_total ncols agg p) := by
  unfold merge_cols merge_cols_total
  induction ncols with
  | zero => simp
  | succ n ih =>
    have hn : n < p.length := by omega
    rw [List.range_succ, List.foldlM_append, List.foldl_append, ih (by omega)]
    simp [List.getD_eq_getElem?_getD, List.getElem?_eq_getElem hn]

theorem merge_step_eq (ncols : Nat) (agg p : PartialResult) (h : ncols ≤ p.cols.length) :
    merge_step ncols agg p = some (merge_step_total ncols agg p) := by
  simp [merge_step, merge_step_total, merge_cols_eq ncols agg.cols p.cols h]

theorem foldlM_merge_step (ncols : Nat) (ps : List PartialResult) (agg : PartialResult)
    (h : ∀ p ∈ ps, ncols ≤ p.cols.length) :
    ps.foldlM (merge_step ncols) agg = some (ps.foldl (merge_step_total ncols) agg) := by
  induction ps generalizing agg with
  | nil => rfl
  | cons p ps ih =>
    rw [List.foldlM_cons, merge_step_eq ncols agg p (h p (List.mem_cons_self _ _))]
    simp only [List.foldl_cons, Option.some_bind, Option.bind_eq_bind]
    exact ih _ fun q hq => h q (List.mem_cons_of_mem _ hq)

/-- On a non-empty list of partial results that all have the same number of
columns, `merge_partials` returns the total fold. -/
theorem merge_partials_eq (p0 : PartialResult) (ps : List PartialResult)
    (h : ∀ p ∈ ps, p.cols.length = p0.cols.length) :
    merge_partials (p0 :: ps) =
      some ((p0 :: ps).foldl (merge_step_total p0.cols.length)
        { cols := List.replicate p0.cols.length {}, rows_processed := 0 }) := by
  unfold merge_partials
  apply foldlM_merge_step
  intro p hp
  rcases List.mem_cons.mp hp with rfl | hp
  · exact le_refl _
  · exact (h p hp).ge

theorem merge_cols_total_length (ncols : Nat) (agg p : List ColStats) :
    (merge_cols_total ncols agg p).length = agg.length :=
  foldl_modify_range_length (fun i (a : ColStats) => a.merge (p.getD i {})) ncols agg

/-- Every column of the result of the inner loop is the merge of a column of
`agg` with a column of `p`, when both have `ncols` columns. -/
theorem mem_merge_cols_total (ncols : Nat) (agg p : List ColStats) (ha : agg.length = ncols)
    (hp : p.length = ncols) (s : ColStats) (hs : s ∈ merge_cols_total ncols agg p) :
    ∃ a ∈ agg, ∃ b ∈ p, s = a.merge b := by
  obtain ⟨i, hi⟩ := List.mem_iff_getElem?.mp hs
  unfold merge_cols_total at hi
  rw [foldl_modify_range_getElem? (fun i (a : ColStats) => a.merge (p.getD i {}))] at hi
  by_cases hlt : i < ncols
  · have h1 : i < agg.length := by omega
    have h2 : i < p.length := by omega
    rw [if_pos hlt, List.getElem?_eq_getElem h1] at hi
    simp only [Option.map_some', Option.some.injEq, List.getD_eq_getElem?_getD,
      List.getElem?_eq_getElem h2, Option.getD_some] at hi
    exact ⟨agg[i], List.getElem_mem h1, p[i], List.getElem_mem h2, hi.symm⟩
  · rw [if_neg hlt, List.getElem?_eq_none (by omega)] at hi
    cases hi

/-- The reducer step on closed forms: merging the columns of `ys` into the
columns of `xs` gives the columns of `xs ++ ys`. -/
theorem merge_cols_total_cols_of (stold : List Char → Option (ℚ × Nat)) (ncols : Nat)
    (xs ys : List (List Char)) :
    merge_cols_total ncols (cols_of stold ncols xs) (cols_of stold ncols ys) =
      cols_of stold ncols (xs ++ ys) := by
  unfold merge_cols_total
  unfold cols_of
  rw [foldl_modify_range_map
    (fun i (a : ColStats) => a.merge (((List.range ncols).map fun c => summary stold (column c ys)).getD i {}))]
  apply List.map_congr_left
  intro c hc
  have hc2 : c < ncols := List.mem_range.mp hc
  simp only [List.getD_eq_getElem?_getD, List.getElem?_map, List.getElem?_range hc2,
    Option.map_some', Option.getD_some]
  rw [summary_merge, column_append]

theorem merge_partials_of_ne_nil (ncols : Nat) (ps : List PartialResult) (hne : ps ≠ [])
    (h : ∀ p ∈ ps, p.cols.length = ncols) :
    merge_partials ps =
      some (ps.foldl (merge_step_total ncols)
        { cols := List.replicate ncols {}, rows_processed := 0 }) := by
  cases ps with
  | nil => exact absurd rfl hne
  | cons p0 ps =>
    have h0 : p0.cols.length = ncols := h p0 (List.mem_cons_self _ _)
    rw [merge_partials_eq p0 ps fun p hp => (h p (List.mem_cons_of_mem _ hp)).trans h0.symm, h0]

/-! ## The round-robin split -/

theorem modify_concat_flatten_perm {α : Type} (a : α) (chunks : List (List α)) (j : Nat)
    (hj : j < chunks.length) :
    (chunks.modify (fun ch => ch ++ [a]) j).flatten.Perm (chunks.flatten ++ [a]) := by
  induction chunks generalizing j with
  | nil => simp at hj
  | cons ch chunks ih =>
    cases j with
    | zero =>
      simp only [List.modify_zero_cons, List.flatten_cons, List.append_assoc]
      exact List.Perm.append_left ch List.perm_append_comm
    | succ j =>
      simp only [List.modify_succ_cons, List.flatten_cons, List.append_assoc]
      exact List.Perm.append_left ch (ih j (by simpa using hj))

/-- The loop of the split, started at row index `n` with `k` chunks: the number
of chunks does not change and the chunks together hold the rows they held
before and the rows read. -/
theorem split_loop_spec (k : Nat) (hk : 0 < k) (ls : List (List Char)) (n : Nat)
    (chunks : List (List (List Char))) (hlen : chunks.length = k) :
    ((ls.enumFrom n).foldl
        (fun chunks il => chunks.modify (fun ch => ch ++ [il.2]) (il.1 % k)) chunks).length = k ∧
    ((ls.enumFrom n).foldl
        (fun chunks il => chunks.modify (fun ch => ch ++ [il.2]) (il.1 % k)) chunks).flatten.Perm
      (chunks.flatten ++ ls) := by
  induction ls generalizing n chunks with
  | nil => simp [hlen]
  | cons l ls ih =>
    simp only [List.enumFrom_cons, List.foldl_cons]
    have hj : n % k < chunks.length := by rw [hlen]; exact Nat.mod_lt _ hk
    obtain ⟨h1, h2⟩ := ih (n + 1) (chunks.modify (fun ch => ch ++ [l]) (n % k))
      (by simp [hlen])
    refine ⟨h1, h2.trans ?_⟩
    have h3 := modify_concat_flatten_perm l chunks (n % k) hj
    have h4 : (chunks.flatten ++ [l] ++ ls) = chunks.flatten ++ l :: ls := by simp
    rw [← h4]
    exact List.Perm.append_right ls h3

theorem split_chunks_length (k : Nat) (hk : 0 < k) (lines : List (List Char)) :
    (split_chunks k lines).length = k :=
  (split_loop_spec k hk lines 0 (List.replicate k []) (by simp)).1

/-- The chunks together are a rearrangement of the rows. -/
theorem split_chunks_perm (k : Nat) (hk : 0 < k) (lines : List (List Char)) :
    (split_chunks k lines).flatten.Perm lines := by
  have h := (split_loop_spec k hk lines 0 (List.replicate k []) (by simp)).2
  simpa using h

theorem map_getD_range {α : Type} (l : List α) (d : α) :
    (List.range l.length).map (fun w => l.getD w d) = l := by
  apply List.ext_getElem?
  intro i
  by_cases h : i < l.length
  · simp [List.getElem?_range h, List.getD_eq_getElem?_getD, List.getElem?_eq_getElem h, h]
  · have h2 : l.length ≤ i := by omega
    rw [List.getElem?_eq_none (by simpa using h2), List.getElem?_eq_none h2]

/-! ## Workers and reducer together -/

theorem cols_of_length (stold : List Char → Option (ℚ × Nat)) (ncols : Nat)
    (lines : List (List Char)) : (cols_of stold ncols lines).length = ncols := by
  simp [cols_of]

theorem cols_of_perm (stold : List Char → Option (ℚ × Nat)) (ncols : Nat)
    {xs ys : List (List Char)} (h : xs.Perm ys) :
    cols_of stold ncols xs = cols_of stold ncols ys := by
  unfold cols_of
  apply List.map_congr_left
  intro c _
  exact summary_perm stold (h.map _)

/-- Folding the reducer step over the results of the chunks selected by `ws`
gives the closed form of the rows merged so far followed by those chunks. -/
theorem foldl_merge_step_chunks (stold : List Char → Option (ℚ × Nat)) (ncols : Nat)
    (chunk : Nat → List (List Char)) (wid : Nat → String) (ws : List Nat)
    (pre : List (List Char)) (agg : PartialResult)
    (hc : agg.cols = cols_of stold ncols pre) (hr : agg.rows_processed = pre.length) :
    ((ws.map fun w => process_chunk stold (chunk w) ncols (wid w)).foldl
        (merge_step_total ncols) agg).cols =
      cols_of stold ncols (pre ++ (ws.map chunk).flatten) ∧
    ((ws.map fun w => process_chunk stold (chunk w) ncols (wid w)).foldl
        (merge_step_total ncols) agg).rows_processed =
      (pre ++ (ws.map chunk).flatten).length := by
  induction ws generalizing pre agg with
  | nil => simp [hc, hr]
  | cons w ws ih =>
    simp only [List.map_cons, List.foldl_cons, List.flatten_cons]
    have h := ih (pre ++ chunk w)
      (merge_step_total ncols agg (process_chunk stold (chunk w) ncols (wid w)))
      (by simp [merge_step_total, process_chunk_eq, hc, merge_cols_total_cols_of])
      (by simp [merge_step_total, process_chunk_eq, hr])
    simpa [List.append_assoc] using h

/-- The final result in closed form, for at least one worker. -/
theorem aggregate_eq (stold : List Char → Option (ℚ × Nat)) (k ncols : Nat)
    (lines : List (List Char)) (hk : 1 ≤ k) :
    ∃ r, aggregate stold k ncols lines = some r ∧ r.cols = cols_of stold ncols lines ∧
      r.rows_processed = lines.length := by
  have hlen := split_chunks_length k hk lines
  have hperm := split_chunks_perm k hk lines
  unfold aggregate run_workers
  rw [merge_partials_of_ne_nil ncols]
  · refine ⟨_, rfl, ?_⟩
    obtain ⟨h1, h2⟩ := foldl_merge_step_chunks stold ncols
      (fun w => (split_chunks k lines).getD w []) (fun w => "worker-" ++ toString w)
      (List.range k) [] { cols := List.replicate ncols {}, rows_processed := 0 }
      (by simp [cols_of_nil]) (by simp)
    have h3 : (List.range k).map (fun w => (split_chunks k lines).getD w []) =
        split_chunks k lines := by
      have := map_getD_range (split_chunks k lines) []
      rwa [hlen] at this
    rw [h3] at h1 h2
    simp only [List.nil_append] at h1 h2
    exact ⟨h1.trans (cols_of_perm stold ncols hperm), h2.trans hperm.length_eq⟩
  · intro h
    have := congrArg List.length h
    simp at this
    omega
  · intro p hp
    obtain ⟨w, _, rfl⟩ := List.mem_map.mp hp
    simp [process_chunk_eq, cols_of_length]

/-! ## Row accounting -/

/-- In the closed form the three class counts add up to the number of cells. -/
theorem summary_total (stold : List Char → Option (ℚ × Nat)) (cells : List (List Char)) :
    (summary stold cells).count + (summary stold cells).null_count +
      (summary stold cells).non_numeric = cells.length := by
  induction cells with
  | nil => simp [summary, numeric_values]
  | cons cell cells ih =>
    simp only [summary, numeric_values] at ih ⊢
    cases cell with
    | nil =>
      simp only [List.filterMap_cons, is_number_nil, List.countP_cons, List.isEmpty_nil,
        List.length_cons]
      simp
      omega
    | cons ch rest =>
      cases hnum : is_number stold (ch :: rest) with
      | none =>
        simp only [List.filterMap_cons, hnum, List.countP_cons, List.length_cons]
        simp
        omega
      | some v =>
        simp only [List.filterMap_cons, hnum, List.countP_cons, List.length_cons]
        simp
        omega

theorem merge_accounted (a b : ColStats) (ra rb : Nat)
    (ha : a.count + a.null_count + a.non_numeric = ra)
    (hb : b.count + b.null_count + b.non_numeric = rb) :
    (a.merge b).count + (a.merge b).null_count + (a.merge b).non_numeric = ra + rb := by
  simp only [ColStats.merge]
  omega

/-- The reducer loop keeps the number of columns and the row accounting, and
adds up the rows. -/
theorem foldl_merge_step_total_accounted (ncols : Nat) (ps : List PartialResult)
    (agg : PartialResult) (hlen : agg.cols.length = ncols) (hacc : rows_accounted agg)
    (hps : ∀ p ∈ ps, p.cols.length = ncols ∧ rows_accounted p) :
    (ps.foldl (merge_step_total ncols) agg).cols.length = ncols ∧
    rows_accounted (ps.foldl (merge_step_total ncols) agg) ∧
    (ps.foldl (merge_step_total ncols) agg).rows_processed =
      agg.rows_processed + (ps.map fun p => p.rows_processed).sum := by
  induction ps generalizing agg with
  | nil => simp [hlen, hacc]
  | cons p ps ih =>
    obtain ⟨hpl, hpa⟩ := hps p (List.mem_cons_self _ _)
    have hlen2 : (merge_step_total ncols agg p).cols.length = ncols := by
      simp [merge_step_total, merge_cols_total_length, hlen]
    have hacc2 : rows_accounted (merge_step_total ncols agg p) := by
      intro s hs
      obtain ⟨a, ha, b, hb, rfl⟩ := mem_merge_cols_total ncols agg.cols p.cols hlen hpl s hs
      exact merge_accounted a b _ _ (hacc a ha) (hpa b hb)
    obtain ⟨h1, h2, h3⟩ := ih (merge_step_total ncols agg p) hlen2 hacc2
      fun q hq => hps q (List.mem_cons_of_mem _ hq)
    refine ⟨h1, h2, ?_⟩
    simp only [List.foldl_cons, List.map_cons, List.sum_cons]
    rw [h3]
    simp only [merge_step_total]
    omega

/-! ## Claims C2, C3, C4 -/

/-- C2: with exact arithmetic, for every worker count `k >= 1`, every column
count and every list of data lines, the round-robin split into `k` chunks,
`process_chunk` on each chunk and `merge_partials` of the `k` results succeed
and give exactly the column statistics (every field of every column) of
`process_chunk` run once on the whole list; in particular one worker and three
workers give the same column statistics. -/
theorem aggregate_partition_independent (stold : List Char → Option (ℚ × Nat)) (ncols : Nat)
    (lines : List (List Char)) :
    (∀ k : Nat, 1 ≤ k → ∀ worker_id : String,
      ∃ r, aggregate stold k ncols lines = some r ∧
        r.cols = (process_chunk stold lines ncols worker_id).cols) ∧
    (∃ r1 r3, aggregate stold 1 ncols lines = some r1 ∧ aggregate stold 3 ncols lines = some r3 ∧
      r1.cols = r3.cols) := by
  constructor
  · intro k hk worker_id
    obtain ⟨r, hr, hc, _⟩ := aggregate_eq stold k ncols lines hk
    exact ⟨r, hr, by rw [hc, process_chunk_eq]⟩
  · obtain ⟨r1, hr1, hc1, _⟩ := aggregate_eq stold 1 ncols lines (le_refl 1)
    obtain ⟨r3, hr3, hc3, _⟩ := aggregate_eq stold 3 ncols lines (by omega)
    exact ⟨r1, r3, hr1, hr3, hc1.trans hc3.symm⟩

/-- C2 at three workers, three columns and the rows `1,2,x` / `,5,y` / `3,,z`. -/
theorem aggregate_partition_independent_witness :
    1 ≤ 3 ∧
    ∃ r, aggregate stold_dec 3 3 ["1,2,x".toList, ",5,y".toList, "3,,z".toList] = some r ∧
      r.cols =
        (process_chunk stold_dec ["1,2,x".toList, ",5,y".toList, "3,,z".toList] 3 "").cols :=
  ⟨by decide,
    (aggregate_partition_independent stold_dec 3
      ["1,2,x".toList, ",5,y".toList, "3,,z".toList]).1 3 (by decide) ""⟩

/-- C3: for every worker count `k >= 1` and every list of data lines, the
merged result exists and its `rows_processed` is the number of data lines. -/
theorem aggregate_rows_processed (stold : List Char → Option (ℚ × Nat)) (k ncols : Nat)
    (lines : List (List Char)) (hk : 1 ≤ k) :
    ∃ r, aggregate stold k ncols lines = some r ∧ r.rows_processed = lines.length := by
  obtain ⟨r, hr, _, hrows⟩ := aggregate_eq stold k ncols lines hk
  exact ⟨r, hr, hrows⟩

/-- C3 at five workers and two data lines. -/
theorem aggregate_rows_processed_witness :
    1 ≤ 5 ∧
    ∃ r, aggregate stold_dec 5 2 ["1,2".toList, "x,".toList] = some r ∧
      r.rows_processed = ["1,2".toList, "x,".toList].length :=
  ⟨by decide, aggregate_rows_processed stold_dec 5 2 ["1,2".toList, "x,".toList] (by decide)⟩

/-- C4: every column of `process_chunk(lines, ncols)` satisfies
`count + null_count + non_numeric = rows_processed = number of lines`; and for
every non-empty list of partial results that each have `ncols` columns and each
satisfy this equation, `merge_partials` succeeds, its `rows_processed` is the
total of the parts, and every one of its `ncols` columns satisfies
`count + null_count + non_numeric = rows_processed`. -/
theorem rows_accounted_chunk_and_merge (stold : List Char → Option (ℚ × Nat)) :
    (∀ (lines : List (List Char)) (ncols : Nat) (worker_id : String),
      (process_chunk stold lines ncols worker_id).cols.length = ncols ∧
      (process_chunk stold lines ncols worker_id).rows_processed = lines.length ∧
      ∀ s ∈ (process_chunk stold lines ncols worker_id).cols,
        s.count + s.null_count + s.non_numeric =
          (process_chunk stold lines ncols worker_id).rows_processed) ∧
    (∀ (partials : List PartialResult) (ncols : Nat), partials ≠ [] →
      (∀ p ∈ partials, p.cols.length = ncols ∧
        ∀ s ∈ p.cols, s.count + s.null_count + s.non_numeric = p.rows_processed) →
      ∃ r, merge_partials partials = some r ∧ r.cols.length = ncols ∧
        r.rows_processed = (partials.map fun p => p.rows_processed).sum ∧
        ∀ s ∈ r.cols, s.count + s.null_count + s.non_numeric = r.rows_processed) := by
  constructor
  · intro lines ncols worker_id
    rw [process_chunk_eq]
    refine ⟨cols_of_length stold ncols lines, rfl, ?_⟩
    intro s hs
    obtain ⟨c, _, rfl⟩ := List.mem_map.mp hs
    have := summary_total stold (column c lines)
    simpa [column] using this
  · intro partials ncols hne hps
    rw [merge_partials_of_ne_nil ncols partials hne fun p hp => (hps p hp).1]
    obtain ⟨h1, h2, h3⟩ := foldl_merge_step_total_accounted ncols partials
      { cols := List.replicate ncols {}, rows_processed := 0 } (by simp)
      (by
        intro s hs
        have : s = {} := List.eq_of_mem_replicate hs
        subst this
        rfl)
      hps
    exact ⟨_, rfl, h1, by simpa using h3, h2⟩

/-- C4 at two one-column partial results holding two rows and one row. -/
theorem rows_accounted_chunk_and_merge_witness :
    ∃ r,
      merge_partials
        [{ cols := [{ count := 1, null_count := 0, non_numeric := 1 }], rows_processed := 2 },
         { cols := [{ count := 0, null_count := 1, non_numeric := 0 }], rows_processed := 1 }]
        = some r ∧
      r.cols.length = 1 ∧ r.rows_processed = 3 ∧
      ∀ s ∈ r.cols, s.count + s.null_count + s.non_numeric = r.rows_processed :=
  (rows_accounted_chunk_and_merge stold_dec).2
    [{ cols := [{ count := 1, null_count := 0, non_numeric := 1 }], rows_processed := 2 },
     { cols := [{ count := 0, null_count := 1, non_numeric := 0 }], rows_processed := 1 }]
    1 (by simp) (by simp)

/-! ## Tokenizer: the loop, one step at a time -/

theorem comma_ne_dq : ¬ ',' = dq := by decide

theorem parse_loop_nil (out : List (List Char)) (cur : List Char) (q : Bool) :
    parse_loop [] out cur q = out ++ [cur] := by
  cases q <;> simp [parse_loop]

theorem parse_loop_quoted_dq_dq (rest : List Char) (out : List (List Char)) (cur : List Char) :
    parse_loop (dq :: dq :: rest) out cur true = parse_loop rest out (cur ++ [dq]) true := by
  simp [parse_loop]

theorem parse_loop_quoted_dq_other (d : Char) (rest : List Char) (out : List (List Char))
    (cur : List Char) (hd : ¬ d = dq) :
    parse_loop (dq :: d :: rest) out cur true = parse_loop (d :: rest) out cur false := by
  rw [parse_loop]
  simp [hd]

theorem parse_loop_quoted_dq_end (out : List (List Char)) (cur : List Char) :
    parse_loop [dq] out cur true = out ++ [cur] := by
  simp [parse_loop]

theorem parse_loop_quoted_other (c : Char) (rest : List Char) (out : List (List Char))
    (cur : List Char) (hc : ¬ c = dq) :
    parse_loop (c :: rest) out cur true = parse_loop rest out (cur ++ [c]) true := by
  cases rest <;> simp [parse_loop, hc]

theorem parse_loop_plain_dq (rest : List Char) (out : List (List Char)) (cur : List Char) :
    parse_loop (dq :: rest) out cur false = parse_loop rest out cur true := by
  simp [parse_loop]

theorem parse_loop_plain_comma (rest : List Char) (out : List (List Char)) (cur : List Char) :
    parse_loop (',' :: rest) out cur false = parse_loop rest (out ++ [cur]) [] false := by
  rw [parse_loop.eq_def]
  simp [comma_ne_dq]

theorem parse_loop_plain_other (c : Char) (rest : List Char) (out : List (List Char))
    (cur : List Char) (hc : ¬ c = dq) (hcomma : ¬ c = ',') :
    parse_loop (c :: rest) out cur false = parse_loop rest out (cur ++ [c]) false := by
  rw [parse_loop]
  simp [hc, hcomma]

/-- The fields already pushed stay in front of the result. -/
theorem parse_loop_out (l : List Char) (out : List (List Char)) (cur : List Char) (q : Bool) :
    ∀ pre : List (List Char), parse_loop l (pre ++ out) cur q = pre ++ parse_loop l out cur q := by
  induction l, out, cur, q using parse_loop.induct with
  | case1 out cur q => intro pre; simp [parse_loop_nil]
  | case2 out cur rest2 ih => intro pre; simp only [parse_loop_quoted_dq_dq, ih]
  | case3 out cur d rest2 hd ih => intro pre; simp only [parse_loop_quoted_dq_other _ _ _ _ hd, ih]
  | case4 out cur ih => intro pre; simp [parse_loop_quoted_dq_end]
  | case5 c rest out cur hc ih => intro pre; simp only [parse_loop_quoted_other _ _ _ _ hc, ih]
  | case6 rest out cur ih => intro pre; simp only [parse_loop_plain_dq, ih]
  | case7 rest out cur _ ih =>
    intro pre
    simp only [parse_loop_plain_comma]
    rw [List.append_assoc, ih]
  | case8 c rest out cur hc hcomma ih =>
    intro pre; simp only [parse_loop_plain_other _ _ _ _ hc hcomma, ih]

theorem parse_loop_out_nil (l : List Char) (out : List (List Char)) (cur : List Char) (q : Bool) :
    parse_loop l out cur q = out ++ parse_loop l [] cur q := by
  have := parse_loop_out l [] cur q out
  simpa using this

/-- The text already collected for the current field stays in front of the
first field of the result. -/
theorem parse_loop_cur (l : List Char) (out : List (List Char)) (cur : List Char) (q : Bool) :
    ∀ pre : List Char, out = [] →
      parse_loop l [] (pre ++ cur) q = (parse_loop l [] cur q).modifyHead (fun f => pre ++ f) := by
  induction l, out, cur, q using parse_loop.induct with
  | case1 out cur q => intro pre _; simp [parse_loop_nil]
  | case2 out cur rest2 ih =>
    intro pre h
    simp only [parse_loop_quoted_dq_dq, List.append_assoc, ih pre h]
  | case3 out cur d rest2 hd ih =>
    intro pre h
    simp only [parse_loop_quoted_dq_other _ _ _ _ hd, ih pre h]
  | case4 out cur ih => intro pre _; simp [parse_loop_quoted_dq_end]
  | case5 c rest out cur hc ih =>
    intro pre h
    simp only [parse_loop_quoted_other _ _ _ _ hc, List.append_assoc, ih pre h]
  | case6 rest out cur ih =>
    intro pre h
    simp only [parse_loop_plain_dq, ih pre h]
  | case7 rest out cur _ ih =>
    intro pre _
    simp only [parse_loop_plain_comma, List.nil_append]
    rw [parse_loop_out_nil rest [pre ++ cur], parse_loop_out_nil rest [cur]]
    simp
  | case8 c rest out cur hc hcomma ih =>
    intro pre h
    simp only [parse_loop_plain_other _ _ _ _ hc hcomma, List.append_assoc, ih pre h]

theorem parse_loop_ne_nil (l : List Char) (out : List (List Char)) (cur : List Char) (q : Bool) :
    parse_loop l out cur q ≠ [] := by
  induction l, out, cur, q using parse_loop.induct with
  | case1 out cur q => simp [parse_loop_nil]
  | case2 out cur rest2 ih => simpa only [parse_loop_quoted_dq_dq] using ih
  | case3 out cur d rest2 hd ih => simpa only [parse_loop_quoted_dq_other _ _ _ _ hd] using ih
  | case4 out cur ih => simp [parse_loop_quoted_dq_end]
  | case5 c rest out cur hc ih => simpa only [parse_loop_quoted_other _ _ _ _ hc] using ih
  | case6 rest out cur ih => simpa only [parse_loop_plain_dq] using ih
  | case7 rest out cur _ ih => simpa only [parse_loop_plain_comma] using ih
  | case8 c rest out cur hc hcomma ih =>
    simpa only [parse_loop_plain_other _ _ _ _ hc hcomma] using ih

/-! ## Tokenizer: lines without a double quote -/

theorem parse_csv_line_comma (rest : List Char) :
    parse_csv_line (',' :: rest) = [] :: parse_csv_line rest := by
  unfold parse_csv_line
  rw [parse_loop_plain_comma, parse_loop_out_nil]
  rfl

theorem parse_csv_line_other (c : Char) (rest : List Char) (hc : ¬ c = dq) (hcomma : ¬ c = ',') :
    parse_csv_line (c :: rest) = (parse_csv_line rest).modifyHead (List.cons c) := by
  unfold parse_csv_line
  rw [parse_loop_plain_other _ _ _ _ hc hcomma]
  have := parse_loop_cur rest [] [] false [c] rfl
  simpa using this

/-- Without a double quote the tokenizer is the split at every comma. -/
theorem parse_csv_line_eq_splitOn (line : List Char) (h : dq ∉ line) :
    parse_csv_line line = line.splitOn ',' := by
  induction line with
  | nil => rfl
  | cons c rest ih =>
    have hc : ¬ c = dq := fun e => h (e ▸ List.mem_cons_self _ _)
    have hrest : dq ∉ rest := fun e => h (List.mem_cons_of_mem _ e)
    unfold List.splitOn at ih ⊢
    rw [List.splitOnP_cons]
    by_cases hcomma : c = ','
    · subst hcomma
      rw [parse_csv_line_comma, ih hrest]
      simp
    · rw [parse_csv_line_other c rest hc hcomma, ih hrest]
      simp [hcomma]

theorem length_splitOn_comma (line : List Char) :
    (line.splitOn ',').length = line.count ',' + 1 := by
  induction line with
  | nil => rfl
  | cons c rest ih =>
    unfold List.splitOn at ih ⊢
    rw [List.splitOnP_cons]
    by_cases hcomma : c = ','
    · subst hcomma
      simp [ih]
    · have : ¬ (c == ',') = true := by simpa using hcomma
      simp [hcomma, ih, List.count_cons, this]

theorem not_mem_splitOn_comma (line : List Char) : ∀ f ∈ line.splitOn ',', ',' ∉ f := by
  induction line with
  | nil => simp
  | cons c rest ih =>
    unfold List.splitOn at ih ⊢
    rw [List.splitOnP_cons]
    by_cases hcomma : c = ','
    · subst hcomma
      simpa using ih
    · have hne := List.splitOnP_ne_nil (fun x => x == ',') rest
      cases hs : List.splitOnP (fun x => x == ',') rest with
      | nil => exact absurd hs hne
      | cons f fs =>
        rw [hs] at ih
        intro g hg
        simp only [beq_iff_eq, hcomma, ↓reduceIte, List.modifyHead_cons, List.mem_cons,
          Bool.false_eq_true] at hg
        rcases hg with rfl | hg
        · intro hmem
          rcases List.mem_cons.mp hmem with e | e
          · exact hcomma e.symm
          · exact ih f (List.mem_cons_self _ _) e
        · exact ih g (List.mem_cons_of_mem _ hg)

theorem getLast?_splitOn_comma (line : List Char) :
    ((line ++ [',']).splitOn ',').getLast? = some [] := by
  induction line with
  | nil => rfl
  | cons c rest ih =>
    unfold List.splitOn at ih ⊢
    rw [List.cons_append, List.splitOnP_cons]
    have hne := List.splitOnP_ne_nil (fun x => x == ',') (rest ++ [','])
    cases hs : List.splitOnP (fun x => x == ',') (rest ++ [',']) with
    | nil => exact absurd hs hne
    | cons f fs =>
      rw [hs] at ih
      by_cases hcomma : c = ','
      · subst hcomma
        simpa [List.getLast?_cons_cons] using ih
      · cases fs with
        | nil =>
          have hlen := length_splitOn_comma (rest ++ [','])
          unfold List.splitOn at hlen
          rw [hs] at hlen
          simp at hlen
        | cons g gs =>
          simpa [hcomma, List.getLast?_cons_cons] using ih

/-! ## Tokenizer: quoted fields -/

/-- Inside quotes, the escaped text of a field followed by a closing quote adds
the field to the current text and leaves quoted mode, when the closing quote is
not followed by another quote. -/
theorem parse_loop_escaped (f : List Char) (rest : List Char) (out : List (List Char))
    (hrest : ∀ d r, rest = d :: r → ¬ d = dq) :
    ∀ cur : List Char,
      parse_loop ((f.flatMap fun c => if c = dq then [dq, dq] else [c]) ++ dq :: rest) out cur true
        = parse_loop rest out (cur ++ f) false := by
  induction f with
  | nil =>
    intro cur
    cases rest with
    | nil => simp [parse_loop_quoted_dq_end, parse_loop_nil]
    | cons d r =>
      simp only [List.flatMap_nil, List.nil_append, List.append_nil]
      exact parse_loop_quoted_dq_other d r out cur (hrest d r rfl)
  | cons c f ih =>
    intro cur
    by_cases hc : c = dq
    · subst hc
      simp only [List.flatMap_cons, ↓reduceIte, List.cons_append, List.nil_append]
      rw [parse_loop_quoted_dq_dq, ih]
      simp
    · simp only [List.flatMap_cons, hc, ↓reduceIte, List.cons_append, List.nil_append]
      rw [parse_loop_quoted_other _ _ _ _ hc, ih]
      simp

theorem quote_line_cons_cons (f g : List Char) (fs : List (List Char)) :
    quote_line (f :: g :: fs) = quote_field f ++ ',' :: quote_line (g :: fs) := by
  simp [quote_line, List.intercalate, List.intersperse]

/-- Outside quotes with an empty current field, a quoted line adds exactly its
fields. -/
theorem parse_loop_quote_line (fs : List (List Char)) :
    ∀ (f : List Char) (out : List (List Char)),
      parse_loop (quote_line (f :: fs)) out [] false = out ++ f :: fs := by
  induction fs with
  | nil =>
    intro f out
    have h := parse_loop_escaped f [] out (by intro d r h; cases h) []
    simp only [quote_line, List.map_cons, List.map_nil, List.intercalate, List.intersperse,
      List.flatten_cons, List.flatten_nil, List.append_nil, quote_field, List.cons_append]
    rw [parse_loop_plain_dq, h]
    simp [parse_loop_nil]
  | cons g gs ih =>
    intro f out
    have h := parse_loop_escaped f (',' :: quote_line (g :: gs)) out
      (by intro d r h; cases h; exact comma_ne_dq) []
    rw [quote_line_cons_cons]
    simp only [quote_field, List.cons_append, List.append_assoc, List.singleton_append,
      List.nil_append]
    rw [parse_loop_plain_dq, h, parse_loop_plain_comma, ih]
    simp

/-- Inside quotes, text without a double quote is taken as it is. -/
theorem parse_loop_quoted_plain (s : List Char) (h : dq ∉ s) (out : List (List Char)) :
    ∀ cur : List Char, parse_loop s out cur true = out ++ [cur ++ s] := by
  induction s with
  | nil => intro cur; simp [parse_loop_nil]
  | cons c s ih =>
    intro cur
    have hc : ¬ c = dq := fun e => h (e ▸ List.mem_cons_self _ _)
    rw [parse_loop_quoted_other _ _ _ _ hc, ih fun e => h (List.mem_cons_of_mem _ e)]
    simp

/-- When the scan ends in quoted mode, a closing quote at the end of the line
changes nothing. -/
theorem parse_loop_append_dq (l : List Char) (out : List (List Char)) (cur : List Char)
    (q : Bool) :
    scan_in_quotes l q = true → parse_loop (l ++ [dq]) out cur q = parse_loop l out cur q := by
  induction l, out, cur, q using parse_loop.induct with
  | case1 out cur q =>
    intro h
    cases q with
    | false => simp [scan_in_quotes] at h
    | true => simp [parse_loop_quoted_dq_end, parse_loop_nil]
  | case2 out cur rest2 ih =>
    intro h
    simp only [scan_in_quotes, ↓reduceIte] at h
    simp only [List.cons_append, parse_loop_quoted_dq_dq]
    exact ih h
  | case3 out cur d rest2 hd ih =>
    intro h
    have h2 : scan_in_quotes (d :: rest2) false = true := by
      simpa [scan_in_quotes, hd] using h
    simp only [List.cons_append, parse_loop_quoted_dq_other _ _ _ _ hd]
    exact ih h2
  | case4 out cur ih =>
    intro h
    simp [scan_in_quotes] at h
  | case5 c rest out cur hc ih =>
    intro h
    have h2 : scan_in_quotes rest true = true := by
      cases rest with
      | nil => simp [scan_in_quotes]
      | cons d r => simpa [scan_in_quotes, hc] using h
    simp only [List.cons_append, parse_loop_quoted_other _ _ _ _ hc]
    exact ih h2
  | case6 rest out cur ih =>
    intro h
    simp only [scan_in_quotes, ↓reduceIte] at h
    simp only [List.cons_append, parse_loop_plain_dq]
    exact ih h
  | case7 rest out cur _ ih =>
    intro h
    simp only [scan_in_quotes, comma_ne_dq, ↓reduceIte] at h
    simp only [List.cons_append, parse_loop_plain_comma]
    exact ih h
  | case8 c rest out cur hc hcomma ih =>
    intro h
    simp only [scan_in_quotes, hc, ↓reduceIte] at h
    simp only [List.cons_append, parse_loop_plain_other _ _ _ _ hc hcomma]
    exact ih h

/-! ## Claims C5, C9, C10 -/

/-- C5: tokenizer round trip.  For every non-empty list of fields (any
characters, commas and double quotes included), writing every field between
double quotes with its double quotes doubled, joining with commas and passing
the line to `parse_csv_line` returns exactly the fields; a field holding a comma
and a quote is reproduced, and the line made of the quoted text `1,000`, a comma
and `5` gives the two fields `1,000` and `5`. -/
theorem tokenizer_round_trip :
    (∀ fields : List (List Char), fields ≠ [] → parse_csv_line (quote_line fields) = fields) ∧
    parse_csv_line (quote_line [['a', ',', dq, 'b']]) = [['a', ',', dq, 'b']] ∧
    parse_csv_line [dq, '1', ',', '0', '0', '0', dq, ',', '5'] =
      [['1', ',', '0', '0', '0'], ['5']] := by
  refine ⟨?_, by decide, by decide⟩
  intro fields hne
  cases fields with
  | nil => exact absurd rfl hne
  | cons f fs =>
    unfold parse_csv_line
    rw [parse_loop_quote_line]
    rfl

/-- C5 at the three fields `x,y`, the empty field and a lone double quote. -/
theorem tokenizer_round_trip_witness :
    parse_csv_line (quote_line [['x', ',', 'y'], [], [dq]]) = [['x', ',', 'y'], [], [dq]] :=
  tokenizer_round_trip.1 [['x', ',', 'y'], [], [dq]] (by simp)

/-- C9: `parse_csv_line` returns at least one field for every line; for every
line without a double quote the result is the line split at every comma: the
number of fields is the number of commas plus one, no field holds a comma, and
the fields joined with commas give back the line; the empty line gives one empty
field and a line that ends in a comma gives an empty last field. -/
theorem parse_csv_line_unquoted :
    (∀ line : List Char, 1 ≤ (parse_csv_line line).length) ∧
    (∀ line : List Char, dq ∉ line →
      parse_csv_line line = line.splitOn ',' ∧
      (parse_csv_line line).length = line.count ',' + 1 ∧
      (∀ f ∈ parse_csv_line line, ',' ∉ f) ∧
      List.intercalate [','] (parse_csv_line line) = line) ∧
    parse_csv_line [] = [[]] ∧
    (∀ line : List Char, dq ∉ line → (parse_csv_line (line ++ [','])).getLast? = some []) := by
  refine ⟨?_, ?_, rfl, ?_⟩
  · intro line
    have := parse_loop_ne_nil line [] [] false
    unfold parse_csv_line
    exact List.length_pos.mpr this
  · intro line h
    rw [parse_csv_line_eq_splitOn line h]
    exact ⟨rfl, length_splitOn_comma line, not_mem_splitOn_comma line,
      List.intercalate_splitOn line ','⟩
  · intro line h
    have h2 : dq ∉ line ++ [','] := by
      intro hmem
      rcases List.mem_append.mp hmem with e | e
      · exact h e
      · exact comma_ne_dq (List.mem_singleton.mp e).symm
    rw [parse_csv_line_eq_splitOn _ h2]
    exact getLast?_splitOn_comma line

/-- C9 at the line `a,,b`, and at the line `a` followed by a comma. -/
theorem parse_csv_line_unquoted_witness :
    (parse_csv_line ['a', ',', ',', 'b'] = ['a', ',', ',', 'b'].splitOn ',' ∧
      (parse_csv_line ['a', ',', ',', 'b']).length = ['a', ',', ',', 'b'].count ',' + 1 ∧
      (∀ f ∈ parse_csv_line ['a', ',', ',', 'b'], ',' ∉ f) ∧
      List.intercalate [','] (parse_csv_line ['a', ',', ',', 'b']) = ['a', ',', ',', 'b']) ∧
    (parse_csv_line (['a'] ++ [','])).getLast? = some [] :=
  ⟨parse_csv_line_unquoted.2.1 ['a', ',', ',', 'b'] (by decide),
    parse_csv_line_unquoted.2.2.2 ['a'] (by decide)⟩

/-- C10: `parse_csv_line` returns a non-empty field list for every line (it is
defined everywhere: a quote that is never closed is not an error), and an
unterminated quote behaves as if it were closed at the end of the line: when the
scan of a line ends in quoted mode, appending one double quote does not change
the result; in particular a double quote followed by text without double quotes
gives that text, commas included, as the single field. -/
theorem unterminated_quote_tolerated :
    (∀ line : List Char, ∃ fields, parse_csv_line line = fields ∧ fields ≠ []) ∧
    (∀ line : List Char, scan_in_quotes line false = true →
      parse_csv_line line = parse_csv_line (line ++ [dq])) ∧
    (∀ s : List Char, dq ∉ s → parse_csv_line (dq :: s) = [s]) := by
  refine ⟨?_, ?_, ?_⟩
  · intro line
    exact ⟨_, rfl, parse_loop_ne_nil line [] [] false⟩
  · intro line h
    unfold parse_csv_line
    exact (parse_loop_append_dq line [] [] false h).symm
  · intro s h
    unfold parse_csv_line
    rw [parse_loop_plain_dq, parse_loop_quoted_plain s h]
    rfl

/-- C10 at the line made of `a`, a comma, a double quote and `b,c`, and at the
line made of a double quote and `b,c`. -/
theorem unterminated_quote_tolerated_witness :
    scan_in_quotes ['a', ',', dq, 'b', ',', 'c'] false = true ∧
    parse_csv_line ['a', ',', dq, 'b', ',', 'c'] =
      parse_csv_line (['a', ',', dq, 'b', ',', 'c'] ++ [dq]) ∧
    parse_csv_line (dq :: ['b', ',', 'c']) = [['b', ',', 'c']] :=
  ⟨by decide, unterminated_quote_tolerated.2.1 ['a', ',', dq, 'b', ',', 'c'] (by decide),
    unterminated_quote_tolerated.2.2 ['b', ',', 'c'] (by decide)⟩

/-! ## Numeric classifier -/

theorem drop_length_takeWhile {α : Type} (p : α → Bool) (l : List α) :
    l.drop (l.takeWhile p).length = l.dropWhile p := by
  induction l with
  | nil => rfl
  | cons a l ih =>
    by_cases h : p a
    · simp [List.takeWhile_cons, List.dropWhile_cons, h, ih]
    · simp [List.takeWhile_cons, List.dropWhile_cons, h]

theorem length_takeWhile_add_dropWhile {α : Type} (p : α → Bool) (l : List α) :
    (l.takeWhile p).length + (l.dropWhile p).length = l.length := by
  induction l with
  | nil => rfl
  | cons a l ih =>
    by_cases h : p a
    · simp [List.takeWhile_cons, List.dropWhile_cons, h]
      omega
    · simp [List.takeWhile_cons, List.dropWhile_cons, h]

/-- The index computation of `is_number` removes the leading and the trailing
white space, and reports the empty remainder as `none`. -/
theorem trim_eq_strip (s : List Char) :
    trim s = if strip s = [] then none else some (strip s) := by
  have hr : (s.dropWhile isspace).reverse.takeWhile isspace ++
      (s.dropWhile isspace).reverse.dropWhile isspace = (s.dropWhile isspace).reverse :=
    List.takeWhile_append_dropWhile _ _
  have hdrop : s.drop (s.takeWhile isspace).length = s.dropWhile isspace :=
    drop_length_takeWhile isspace s
  have hlen : s.length = (s.takeWhile isspace).length + (s.dropWhile isspace).length :=
    (length_takeWhile_add_dropWhile isspace s).symm
  have hlen2 : (s.dropWhile isspace).length =
      ((s.dropWhile isspace).reverse.takeWhile isspace).length +
        ((s.dropWhile isspace).reverse.dropWhile isspace).length := by
    have := length_takeWhile_add_dropWhile isspace (s.dropWhile isspace).reverse
    rw [List.length_reverse] at this
    exact this.symm
  have hrev : s.dropWhile isspace =
      ((s.dropWhile isspace).reverse.dropWhile isspace).reverse ++
        ((s.dropWhile isspace).reverse.takeWhile isspace).reverse := by
    have := congrArg List.reverse hr
    rw [List.reverse_append, List.reverse_reverse] at this
    exact this.symm
  unfold trim strip
  simp only [hdrop]
  by_cases hd : (s.dropWhile isspace).reverse.dropWhile isspace = []
  · have h0 : ((s.dropWhile isspace).reverse.dropWhile isspace).length = 0 := by simp [hd]
    rw [if_pos (by omega), if_pos (by simp [hd])]
  · have hpos : 0 < ((s.dropWhile isspace).reverse.dropWhile isspace).length :=
      List.length_pos.mpr hd
    rw [if_neg (by omega), if_neg (by simpa using hd)]
    have hk : s.length - ((s.dropWhile isspace).reverse.takeWhile isspace).length -
        (s.takeWhile isspace).length =
          (((s.dropWhile isspace).reverse.dropWhile isspace).reverse).length := by
      simp only [List.length_reverse]
      omega
    rw [hk]
    congr 1
    conv_lhs => rw [hrev]
    simp

theorem trim_of_all_space (s : List Char) (h : ∀ ch ∈ s, isspace ch = true) : trim s = none := by
  have h1 : s.dropWhile isspace = [] := List.dropWhile_eq_nil_iff.mpr h
  rw [trim_eq_strip]
  simp [strip, h1]

theorem is_number_of_all_space (stold : List Char → Option (ℚ × Nat)) (s : List Char)
    (h : ∀ ch ∈ s, isspace ch = true) : is_number stold s = none := by
  simp [is_number, trim_of_all_space s h]

/-- The classifier in terms of the stripped text. -/
theorem is_number_eq_some_iff (stold : List Char → Option (ℚ × Nat)) (s : List Char) (v : ℚ) :
    is_number stold s = some v ↔
      strip s ≠ [] ∧ stold (strip s) = some (v, (strip s).length) := by
  unfold is_number
  rw [trim_eq_strip]
  by_cases hs : strip s = []
  · simp [hs]
  · simp only [hs, ↓reduceIte, ne_eq, not_false_eq_true, true_and]
    cases hst : stold (strip s) with
    | none => simp
    | some p =>
      obtain ⟨w, idx⟩ := p
      by_cases hidx : idx = (strip s).length
      · simp [hidx]
      · simp [hidx]

/-! ## One more row -/

/-- The statistics of column `c` after one more line. -/
theorem process_chunk_concat_getElem? (stold : List Char → Option (ℚ × Nat))
    (lines : List (List Char)) (line : List Char) (ncols : Nat) (worker_id : String) (c : Nat)
    (hc : c < ncols) :
    ∃ s, (process_chunk stold lines ncols worker_id).cols[c]? = some s ∧
      (process_chunk stold (lines ++ [line]) ncols worker_id).cols[c]? =
        some (process_cell stold (cell_at (parse_csv_line line) c) s) := by
  have hlen : c < (process_chunk stold lines ncols worker_id).cols.length := by
    rw [process_chunk_eq]
    simpa [cols_of_length] using hc
  refine ⟨(process_chunk stold lines ncols worker_id).cols[c], List.getElem?_eq_getElem hlen, ?_⟩
  have hstep : process_chunk stold (lines ++ [line]) ncols worker_id =
      process_line stold ncols (process_chunk stold lines ncols worker_id) line := by
    simp [process_chunk, List.foldl_append]
  rw [hstep]
  simp only [process_line, process_row]
  rw [foldl_modify_range_getElem? (fun c => process_cell stold (cell_at (parse_csv_line line) c)),
    if_pos hc, List.getElem?_eq_getElem hlen]
  rfl

theorem process_chunk_concat (stold : List Char → Option (ℚ × Nat))
    (lines : List (List Char)) (line : List Char) (ncols : Nat) (worker_id : String) :
    process_chunk stold (lines ++ [line]) ncols worker_id =
      process_line stold ncols (process_chunk stold lines ncols worker_id) line := by
  simp [process_chunk, List.foldl_append]

theorem cell_at_take (cells : List (List Char)) (ncols c : Nat) (hc : c < ncols) :
    cell_at (cells.take ncols) c = cell_at cells c := by
  unfold cell_at
  by_cases h : c < cells.length
  · have h2 : c < (cells.take ncols).length := by simp; omega
    rw [if_pos h, if_pos h2]
    simp only [List.getD_eq_getElem?_getD, List.getElem?_take_of_lt hc]
  · have h2 : ¬ c < (cells.take ncols).length := by simp; omega
    simp [h, h2]

/-- The column loop reads the first `ncols` cells only. -/
theorem process_row_congr (stold : List Char → Option (ℚ × Nat)) (ncols : Nat)
    (cells1 cells2 : List (List Char)) (cols : List ColStats)
    (h : ∀ c, c < ncols → cell_at cells1 c = cell_at cells2 c) :
    process_row stold ncols cells1 cols = process_row stold ncols cells2 cols := by
  apply List.ext_getElem?
  intro i
  unfold process_row
  rw [foldl_modify_range_getElem? (fun c => process_cell stold (cell_at cells1 c)),
    foldl_modify_range_getElem? (fun c => process_cell stold (cell_at cells2 c))]
  by_cases hi : i < ncols
  · simp [hi, h i hi]
  · simp [hi]

/-! ## Claims C6, C7, C8 -/

/-- C6, as amended: for every line and every column `c < ncols`, when the cell
read for column `c` is not empty and holds white space only, `process_chunk`
counts the cell as non-numeric: the column's `non_numeric` grows by one and all
its other fields, `null_count` and `count` included, are unchanged.  Only the
empty cell is counted as null. -/
theorem whitespace_cell_non_numeric (stold : List Char → Option (ℚ × Nat))
    (lines : List (List Char)) (line : List Char) (ncols : Nat) (worker_id : String) (c : Nat)
    (hc : c < ncols) (hne : cell_at (parse_csv_line line) c ≠ [])
    (hws : ∀ ch ∈ cell_at (parse_csv_line line) c, isspace ch = true) :
    ∃ s, (process_chunk stold lines ncols worker_id).cols[c]? = some s ∧
      (process_chunk stold (lines ++ [line]) ncols worker_id).cols[c]? =
        some { s with non_numeric := s.non_numeric + 1 } := by
  obtain ⟨s, h1, h2⟩ := process_chunk_concat_getElem? stold lines line ncols worker_id c hc
  refine ⟨s, h1, ?_⟩
  rw [h2]
  have he : (cell_at (parse_csv_line line) c).isEmpty = false := by
    cases hcell : cell_at (parse_csv_line line) c with
    | nil => exact absurd hcell hne
    | cons _ _ => rfl
  simp [process_cell, he, is_number_of_all_space stold _ hws]

/-- C6 as amended, at the line holding one space and one column. -/
theorem whitespace_cell_non_numeric_witness :
    ∃ s, (process_chunk stold_dec [] 1 "").cols[0]? = some s ∧
      (process_chunk stold_dec ([] ++ [[' ']]) 1 "").cols[0]? =
        some { s with non_numeric := s.non_numeric + 1 } :=
  whitespace_cell_non_numeric stold_dec [] [' '] 1 "" 0 (by decide) (by decide) (by decide)

/-- C6 as stated fails: the line holding one space tokenizes into the single
field holding that space, and with one column `process_chunk` leaves
`null_count` at `0` and sets `non_numeric` to `1`. -/
theorem whitespace_cell_not_null :
    cell_at (parse_csv_line [' ']) 0 = [' '] ∧ isspace ' ' = true ∧
    ((process_chunk stold_dec [] 1 "").cols.map fun s => (s.count, s.null_count, s.non_numeric))
      = [(0, 0, 0)] ∧
    ((process_chunk stold_dec [[' ']] 1 "").cols.map
      fun s => (s.count, s.null_count, s.non_numeric)) = [(0, 0, 1)] := by
  decide

/-- C7: for every line and every `ncols`, the columns at or after the number
of fields of the line get one more null and nothing else; when the line has more
than `ncols` fields the column loop gives the same result as on the first
`ncols` fields, so any line that tokenizes into those fields gives the same
result of `process_chunk`; and in every case `rows_processed` grows by exactly
one (`process_chunk` is defined on every input). -/
theorem short_and_long_rows (stold : List Char → Option (ℚ × Nat)) (lines : List (List Char))
    (line : List Char) (ncols : Nat) (worker_id : String) :
    (∀ c, (parse_csv_line line).length ≤ c → c < ncols →
      ∃ s, (process_chunk stold lines ncols worker_id).cols[c]? = some s ∧
        (process_chunk stold (lines ++ [line]) ncols worker_id).cols[c]? =
          some { s with null_count := s.null_count + 1 }) ∧
    (ncols < (parse_csv_line line).length →
      (∀ cols, process_row stold ncols (parse_csv_line line) cols =
        process_row stold ncols ((parse_csv_line line).take ncols) cols) ∧
      ∀ line2, parse_csv_line line2 = (parse_csv_line line).take ncols →
        process_chunk stold (lines ++ [line2]) ncols worker_id =
          process_chunk stold (lines ++ [line]) ncols worker_id) ∧
    (process_chunk stold (lines ++ [line]) ncols worker_id).rows_processed =
      (process_chunk stold lines ncols worker_id).rows_processed + 1 := by
  refine ⟨?_, ?_, ?_⟩
  · intro c hm hc
    obtain ⟨s, h1, h2⟩ := process_chunk_concat_getElem? stold lines line ncols worker_id c hc
    refine ⟨s, h1, ?_⟩
    rw [h2]
    have hcell : cell_at (parse_csv_line line) c = [] := by
      unfold cell_at
      rw [if_neg (by omega)]
    simp [process_cell, hcell]
  · intro _
    have hrow : ∀ cols, process_row stold ncols (parse_csv_line line) cols =
        process_row stold ncols ((parse_csv_line line).take ncols) cols := fun cols =>
      process_row_congr stold ncols _ _ cols fun c hc => (cell_at_take _ ncols c hc).symm
    refine ⟨hrow, ?_⟩
    intro line2 h2
    rw [process_chunk_concat, process_chunk_concat]
    simp only [process_line, h2, hrow]
  · rw [process_chunk_concat]
    rfl

/-- C7 at two columns: the one-field line `1` after no line, column 1; and the
three-field line `1,2,3` against the line `1,2`. -/
theorem short_and_long_rows_witness :
    (∃ s, (process_chunk stold_dec [] 2 "").cols[1]? = some s ∧
        (process_chunk stold_dec ([] ++ [['1']]) 2 "").cols[1]? =
          some { s with null_count := s.null_count + 1 }) ∧
    process_chunk stold_dec ([] ++ [['1', ',', '2']]) 2 "" =
      process_chunk stold_dec ([] ++ [['1', ',', '2', ',', '3']]) 2 "" :=
  ⟨(short_and_long_rows stold_dec [] ['1'] 2 "").1 1 (by decide) (by decide),
    ((short_and_long_rows stold_dec [] ['1', ',', '2', ',', '3'] 2 "").2.1 (by decide)).2
      ['1', ',', '2'] (by decide)⟩

/-- C8: `is_number` accepts a field with value `v` exactly when the field with
its leading and trailing white space removed is not empty and `stold` converts
the whole of it to `v`; when `stold` converts a proper initial part only, the
field is rejected, whatever the value of that part.  With the decimal `stold`:
`12abc` (of which `12` is converted) and `1,000` are rejected, and ` 42 ` is
accepted with value `42`. -/
theorem is_number_accepts_iff :
    (∀ (stold : List Char → Option (ℚ × Nat)) (s : List Char) (v : ℚ),
      is_number stold s = some v ↔
        strip s ≠ [] ∧ stold (strip s) = some (v, (strip s).length)) ∧
    (∀ (stold : List Char → Option (ℚ × Nat)) (s : List Char) (v : ℚ) (idx : Nat),
      stold (strip s) = some (v, idx) → idx < (strip s).length → is_number stold s = none) ∧
    stold_dec ['1', '2', 'a', 'b', 'c'] = some (12, 2) ∧
    is_number stold_dec ['1', '2', 'a', 'b', 'c'] = none ∧
    is_number stold_dec ['1', ',', '0', '0', '0'] = none ∧
    is_number stold_dec [' ', '4', '2', ' '] = some 42 := by
  refine ⟨is_number_eq_some_iff, ?_, ?_, by decide, by decide, ?_⟩
  · intro stold s v idx hst hidx
    cases h : is_number stold s with
    | none => rfl
    | some w =>
      have h2 := ((is_number_eq_some_iff stold s w).mp h).2
      rw [hst] at h2
      simp only [Option.some.injEq, Prod.mk.injEq] at h2
      omega
  · simp [stold_dec, read_sign, read_exponent, digits_value, isspace, List.takeWhile,
      List.dropWhile]
  · have h1 : trim [' ', '4', '2', ' '] = some ['4', '2'] := by decide
    have h2 : stold_dec ['4', '2'] = some (42, 2) := by
      simp [stold_dec, read_sign, read_exponent, digits_value, isspace, List.takeWhile,
        List.dropWhile]
    simp [is_number, h1, h2]

/-- C8 at the field `12abc` with the decimal `stold`. -/
theorem is_number_accepts_iff_witness :
    strip ['1', '2', 'a', 'b', 'c'] = ['1', '2', 'a', 'b', 'c'] ∧
    is_number stold_dec ['1', '2', 'a', 'b', 'c'] = none :=
  ⟨by decide,
    is_number_accepts_iff.2.1 stold_dec ['1', '2', 'a', 'b', 'c'] 12 2
      (by
        simp [strip, stold_dec, read_sign, read_exponent, digits_value, isspace, List.takeWhile,
          List.dropWhile])
      (by decide)⟩

/-! ## Welford: mean and squared deviations -/

theorem sumSqDev_expand (m : ℚ) (xs : List ℚ) :
    sumSqDev m xs = sumSq xs - 2 * m * xs.sum + (xs.length : ℚ) * (m * m) := by
  induction xs with
  | nil => simp [sumSqDev, sumSq]
  | cons x xs ih =>
    simp only [sumSqDev, sumSq, List.map_cons, List.sum_cons, List.length_cons, Nat.cast_add,
      Nat.cast_one] at ih ⊢
    rw [ih]
    ring

theorem Welford.ofList_mean (xs : List ℚ) (h : xs ≠ []) :
    (Welford.ofList xs).mean = xs.sum / (xs.length : ℚ) := by
  have hm := (Welford.ofList_moments xs).2.1
  have hpos : (xs.length : ℚ) ≠ 0 := by
    have : xs.length ≠ 0 := fun e => h (List.length_eq_zero.mp e)
    exact_mod_cast this
  rw [eq_div_iff hpos, ← hm]
  ring

/-- The running `M2` is the sum of the squared deviations from the running
mean. -/
theorem Welford.ofList_M2 (xs : List ℚ) :
    (Welford.ofList xs).M2 = sumSqDev (Welford.ofList xs).mean xs := by
  obtain ⟨_, hm, hM⟩ := Welford.ofList_moments xs
  rw [hM, sumSqDev_expand, ← hm]
  ring

theorem sumSqDev_nonneg (m : ℚ) (xs : List ℚ) : 0 ≤ sumSqDev m xs := by
  unfold sumSqDev
  apply List.sum_nonneg
  intro y hy
  obtain ⟨x, _, rfl⟩ := List.mem_map.mp hy
  exact mul_self_nonneg _

/-- C11: with exact arithmetic, for every list `xs` the Welford state reached
from the initial state by `add` over `xs` has `n` equal to the length of `xs`,
`mean` equal to the arithmetic mean of `xs` when `xs` is not empty, and `M2`
equal to the sum over `xs` of the squared deviations from that mean; and
`variance()` is `M2 / (n - 1)`, the unbiased sample variance, when `n > 1` and
`0` when `n <= 1`. -/
theorem welford_closed_form (xs : List ℚ) :
    (List.foldl Welford.add (Welford.mk 0 0 0) xs).n = xs.length ∧
    (xs ≠ [] →
      (List.foldl Welford.add (Welford.mk 0 0 0) xs).mean = xs.sum / (xs.length : ℚ)) ∧
    (List.foldl Welford.add (Welford.mk 0 0 0) xs).M2 =
      sumSqDev (List.foldl Welford.add (Welford.mk 0 0 0) xs).mean xs ∧
    (1 < xs.length →
      Welford.variance (List.foldl Welford.add (Welford.mk 0 0 0) xs) =
        sumSqDev (xs.sum / (xs.length : ℚ)) xs / ((xs.length : ℚ) - 1)) ∧
    (xs.length ≤ 1 → Welford.variance (List.foldl Welford.add (Welford.mk 0 0 0) xs) = 0) := by
  have hn : (Welford.ofList xs).n = xs.length := (Welford.ofList_moments xs).1
  refine ⟨hn, Welford.ofList_mean xs, Welford.ofList_M2 xs, ?_, ?_⟩
  · intro h
    have hne : xs ≠ [] := by
      intro e
      rw [e] at h
      simp at h
    have hv : Welford.variance (Welford.ofList xs) =
        (Welford.ofList xs).M2 / (((Welford.ofList xs).n - 1 : Nat) : ℚ) := by
      unfold Welford.variance
      rw [if_pos (by omega)]
    have hcast : (((Welford.ofList xs).n - 1 : Nat) : ℚ) = (xs.length : ℚ) - 1 := by
      rw [hn, Nat.cast_sub (by omega)]
      simp
    have hgoal : Welford.variance (Welford.ofList xs) =
        sumSqDev (xs.sum / (xs.length : ℚ)) xs / ((xs.length : ℚ) - 1) := by
      rw [hv, hcast, Welford.ofList_M2, Welford.ofList_mean xs hne]
    exact hgoal
  · intro h
    have hgoal : Welford.variance (Welford.ofList xs) = 0 := by
      unfold Welford.variance
      rw [if_neg (by omega)]
    exact hgoal

/-- C11 at the observations `1, 3` (mean and variance) and at the single
observation `5` (variance `0`). -/
theorem welford_closed_form_witness :
    (List.foldl Welford.add (Welford.mk 0 0 0) [1, 3]).mean =
      ([1, 3] : List ℚ).sum / (([1, 3] : List ℚ).length : ℚ) ∧
    Welford.variance (List.foldl Welford.add (Welford.mk 0 0 0) [1, 3]) =
      sumSqDev (([1, 3] : List ℚ).sum / (([1, 3] : List ℚ).length : ℚ)) [1, 3] /
        ((([1, 3] : List ℚ).length : ℚ) - 1) ∧
    Welford.variance (List.foldl Welford.add (Welford.mk 0 0 0) [5]) = 0 :=
  ⟨(welford_closed_form [1, 3]).2.1 (by simp),
    (welford_closed_form [1, 3]).2.2.2.1 (by simp),
    (welford_closed_form [5]).2.2.2.2 (by simp)⟩

/-! ## Reachable statistics are the statistics of a list of values -/

theorem summary_eq_stats_of (stold : List Char → Option (ℚ × Nat)) (cells : List (List Char)) :
    summary stold cells =
      stats_of (numeric_values stold cells) (cells.countP fun cell => cell.isEmpty)
        (cells.countP fun cell => !cell.isEmpty && (is_number stold cell).isNone) :=
  rfl

theorem stats_of_nil : stats_of [] 0 0 = {} := by
  simp [stats_of, list_min, list_max, Welford.ofList]

theorem stats_of_add_numeric (xs : List ℚ) (a b : Nat) (x : ℚ) :
    (stats_of xs a b).add_numeric x = stats_of (xs ++ [x]) a b := by
  simp only [stats_of, ColStats.add_numeric, List.length_append, List.length_singleton,
    List.sum_append, List.sum_singleton, list_min_append, list_max_append,
    Welford.ofList_append_singleton]
  have h1 : list_min [x] = (x : WithTop ℚ) := by simp [list_min]
  have h2 : list_max [x] = (x : WithBot ℚ) := by simp [list_max]
  rw [h1, h2]
  congr 1
  · by_cases hlt : (x : WithTop ℚ) < list_min xs
    · rw [if_pos hlt, min_eq_right hlt.le]
    · rw [if_neg hlt, min_eq_left (not_lt.mp hlt)]
  · by_cases hlt : (x : WithBot ℚ) > list_max xs
    · rw [if_pos hlt, max_eq_right hlt.le]
    · rw [if_neg hlt, max_eq_left (not_lt.mp hlt)]

/-- Merging the statistics of two lists of values gives the statistics of the
concatenation, with the counters added. -/
theorem stats_of_merge (xs ys : List ℚ) (a b c d : Nat) :
    (stats_of xs a b).merge (stats_of ys c d) = stats_of (xs ++ ys) (a + c) (b + d) := by
  simp only [stats_of, ColStats.merge, List.length_append, List.sum_append, list_min_append,
    list_max_append, Welford.merge_ofList]
  congr 1
  · by_cases hc : ys.length > 0
    · rw [if_pos hc]
      by_cases hlt : list_min xs > list_min ys
      · rw [if_pos hlt, min_eq_right hlt.le]
      · rw [if_neg hlt, min_eq_left (not_lt.mp hlt)]
    · rw [if_neg hc]
      have : ys = [] := List.length_eq_zero.mp (by omega)
      simp [this, list_min]
  · by_cases hc : ys.length > 0
    · rw [if_pos hc]
      by_cases hlt : list_max xs < list_max ys
      · rw [if_pos hlt, max_eq_right hlt.le]
      · rw [if_neg hlt, max_eq_left (not_lt.mp hlt)]
    · rw [if_neg hc]
      have : ys = [] := List.length_eq_zero.mp (by omega)
      simp [this, list_max]

theorem stats_of_perm {xs ys : List ℚ} (h : xs.Perm ys) (a b : Nat) :
    stats_of xs a b = stats_of ys a b := by
  simp only [stats_of, h.length_eq, h.sum_eq, list_min_perm h, list_max_perm h,
    Welford.ofList_perm h]

/-- Every reachable Welford state is the state of a list of observations. -/
theorem Welford.Reachable.exists_ofList {w : Welford} (h : Welford.Reachable w) :
    ∃ xs : List ℚ, w = Welford.ofList xs := by
  induction h with
  | init => exact ⟨[], rfl⟩
  | add w x _ ih =>
    obtain ⟨xs, rfl⟩ := ih
    exact ⟨xs ++ [x], (Welford.ofList_append_singleton xs x).symm⟩
  | merge a b _ _ iha ihb =>
    obtain ⟨xs, rfl⟩ := iha
    obtain ⟨ys, rfl⟩ := ihb
    exact ⟨xs ++ ys, Welford.merge_ofList xs ys⟩

/-- Every reachable column statistic is the statistic of a list of values and
two counters. -/
theorem ColStats.Reachable.exists_stats_of {s : ColStats} (h : ColStats.Reachable s) :
    ∃ (xs : List ℚ) (a b : Nat), s = stats_of xs a b := by
  induction h with
  | init => exact ⟨[], 0, 0, stats_of_nil.symm⟩
  | add_numeric s x _ ih =>
    obtain ⟨xs, a, b, rfl⟩ := ih
    exact ⟨xs ++ [x], a, b, stats_of_add_numeric xs a b x⟩
  | null s _ ih =>
    obtain ⟨xs, a, b, rfl⟩ := ih
    exact ⟨xs, a + 1, b, rfl⟩
  | non_numeric s _ ih =>
    obtain ⟨xs, a, b, rfl⟩ := ih
    exact ⟨xs, a, b + 1, rfl⟩
  | merge s t _ _ ihs iht =>
    obtain ⟨xs, a, b, rfl⟩ := ihs
    obtain ⟨ys, c, d, rfl⟩ := iht
    exact ⟨xs ++ ys, a + c, b + d, stats_of_merge xs ys a b c d⟩

/-- The statistics of a list of values are reachable. -/
theorem stats_of_reachable (xs : List ℚ) (a b : Nat) : ColStats.Reachable (stats_of xs a b) := by
  induction xs using List.reverseRecOn with
  | nil =>
    induction a with
    | zero =>
      induction b with
      | zero => rw [stats_of_nil]; exact ColStats.Reachable.init
      | succ b ih => exact ColStats.Reachable.non_numeric _ ih
    | succ a ih => exact ColStats.Reachable.null _ ih
  | append_singleton xs x ih =>
    rw [← stats_of_add_numeric]
    exact ColStats.Reachable.add_numeric _ x ih

/-- Every column of a result of `process_chunk` is reachable. -/
theorem process_chunk_reachable (stold : List Char → Option (ℚ × Nat))
    (lines : List (List Char)) (ncols : Nat) (worker_id : String) :
    ∀ s ∈ (process_chunk stold lines ncols worker_id).cols, ColStats.Reachable s := by
  intro s hs
  rw [process_chunk_eq] at hs
  obtain ⟨c, _, rfl⟩ := List.mem_map.mp hs
  rw [summary_eq_stats_of]
  exact stats_of_reachable _ _ _

/-! ## Order of merging -/

theorem Welford.merge_of_ne_zero (a b : Welford) (ha : a.n ≠ 0) (hb : b.n ≠ 0) :
    a.merge b =
      { n := a.n + b.n
        mean := (a.mean * (a.n : ℚ) + b.mean * (b.n : ℚ)) / ((a.n : ℚ) + (b.n : ℚ))
        M2 := a.M2 + b.M2 +
          (b.mean - a.mean) * (b.mean - a.mean) * (a.n : ℚ) * (b.n : ℚ) /
            ((a.n : ℚ) + (b.n : ℚ)) } := by
  simp [Welford.merge, ha, hb]

/-- Merging two states into a third gives the same state in either order, for
all states. -/
theorem Welford.merge_merge_swap (a x y : Welford) :
    (a.merge x).merge y = (a.merge y).merge x := by
  by_cases hx : x.n = 0
  · simp [Welford.merge, hx]
  by_cases hy : y.n = 0
  · simp [Welford.merge, hy]
  have hxq : (x.n : ℚ) ≠ 0 := by exact_mod_cast hx
  have hyq : (y.n : ℚ) ≠ 0 := by exact_mod_cast hy
  have hxy : (x.n : ℚ) + (y.n : ℚ) ≠ 0 := by positivity
  have hyx : (y.n : ℚ) + (x.n : ℚ) ≠ 0 := by positivity
  by_cases ha : a.n = 0
  · have h1 : a.merge x = x := by simp [Welford.merge, ha, hx]
    have h2 : a.merge y = y := by simp [Welford.merge, ha, hy]
    rw [h1, h2, Welford.merge_of_ne_zero x y hx hy, Welford.merge_of_ne_zero y x hy hx]
    apply Welford.eq_of_fields
    · simp only; omega
    · simp only; field_simp; ring
    · simp only; field_simp; ring
  · have haq : (a.n : ℚ) ≠ 0 := by exact_mod_cast ha
    have hax : (a.n : ℚ) + (x.n : ℚ) ≠ 0 := by positivity
    have hay : (a.n : ℚ) + (y.n : ℚ) ≠ 0 := by positivity
    have haxy : (a.n : ℚ) + (x.n : ℚ) + (y.n : ℚ) ≠ 0 := by positivity
    have hayx : (a.n : ℚ) + (y.n : ℚ) + (x.n : ℚ) ≠ 0 := by positivity
    have h1 := Welford.merge_of_ne_zero a x ha hx
    have h2 := Welford.merge_of_ne_zero a y ha hy
    have h1n : (a.merge x).n ≠ 0 := by rw [h1]; simp only; omega
    have h2n : (a.merge y).n ≠ 0 := by rw [h2]; simp only; omega
    rw [Welford.merge_of_ne_zero _ y h1n hy, Welford.merge_of_ne_zero _ x h2n hx, h1, h2]
    apply Welford.eq_of_fields
    · simp only; omega
    · simp only [Nat.cast_add]; field_simp; ring
    · simp only [Nat.cast_add]; field_simp; ring

theorem ite_gt_eq_min {α : Type} [LinearOrder α] (p q : α) :
    (if p > q then q else p) = min p q := by
  by_cases h : p > q
  · rw [if_pos h, min_eq_right h.le]
  · rw [if_neg h, min_eq_left (not_lt.mp h)]

theorem ite_lt_eq_max {α : Type} [LinearOrder α] (p q : α) :
    (if p < q then q else p) = max p q := by
  by_cases h : p < q
  · rw [if_pos h, max_eq_right h.le]
  · rw [if_neg h, max_eq_left (not_lt.mp h)]

/-- Merging two column statistics into a third gives the same statistics in
either order, for all statistics. -/
theorem ColStats.merge_right_comm (a x y : ColStats) :
    (a.merge x).merge y = (a.merge y).merge x := by
  simp only [ColStats.merge, Welford.merge_merge_swap a.w x.w y.w, ite_gt_eq_min,
    ite_lt_eq_max]
  congr 1
  · omega
  · omega
  · omega
  · ring
  · by_cases hx : x.count > 0 <;> by_cases hy : y.count > 0 <;>
      simp only [hx, hy, if_true, if_false]
    exact min_right_comm _ _ _
  · by_cases hx : x.count > 0 <;> by_cases hy : y.count > 0 <;>
      simp only [hx, hy, if_true, if_false]
    exact sup_right_comm _ _ _

theorem merge_cols_total_right_comm (ncols : Nat) (z x y : List ColStats) :
    merge_cols_total ncols (merge_cols_total ncols z x) y =
      merge_cols_total ncols (merge_cols_total ncols z y) x := by
  apply List.ext_getElem?
  intro i
  unfold merge_cols_total
  rw [foldl_modify_range_getElem? (fun i (a : ColStats) => a.merge (y.getD i {})),
    foldl_modify_range_getElem? (fun i (a : ColStats) => a.merge (x.getD i {})),
    foldl_modify_range_getElem? (fun i (a : ColStats) => a.merge (x.getD i {})),
    foldl_modify_range_getElem? (fun i (a : ColStats) => a.merge (y.getD i {}))]
  by_cases hi : i < ncols
  · simp only [hi, if_true]
    cases z[i]? with
    | none => rfl
    | some a => simp [ColStats.merge_right_comm]
  · simp only [hi, if_false]

theorem merge_step_total_right_comm (ncols : Nat) (z x y : PartialResult) :
    merge_step_total ncols (merge_step_total ncols z x) y =
      merge_step_total ncols (merge_step_total ncols z y) x := by
  simp only [merge_step_total, merge_cols_total_right_comm ncols z.cols x.cols y.cols,
    Nat.add_right_comm]

/-- The reducer returns the same result for every order of a non-empty list of
partial results that all have `ncols` columns. -/
theorem merge_partials_perm (ncols : Nat) (ps qs : List PartialResult) (hne : ps ≠ [])
    (hlen : ∀ p ∈ ps, p.cols.length = ncols) (hperm : ps.Perm qs) :
    ∃ r, merge_partials ps = some r ∧ merge_partials qs = some r := by
  have hne2 : qs ≠ [] := by
    intro e
    rw [e] at hperm
    exact hne hperm.eq_nil
  have hlen2 : ∀ p ∈ qs, p.cols.length = ncols := fun p hp => hlen p (hperm.symm.subset hp)
  rw [merge_partials_of_ne_nil ncols ps hne hlen, merge_partials_of_ne_nil ncols qs hne2 hlen2]
  refine ⟨_, rfl, ?_⟩
  rw [List.Perm.foldl_eq' hperm fun x _ y _ z => merge_step_total_right_comm ncols z x y]

theorem ColStats.merge_comm_of_reachable (a b : ColStats) (ha : ColStats.Reachable a)
    (hb : ColStats.Reachable b) : a.merge b = b.merge a := by
  obtain ⟨xs, a1, a2, rfl⟩ := ha.exists_stats_of
  obtain ⟨ys, b1, b2, rfl⟩ := hb.exists_stats_of
  rw [stats_of_merge, stats_of_merge, stats_of_perm List.perm_append_comm, Nat.add_comm a1,
    Nat.add_comm a2]

theorem ColStats.merge_assoc_of_reachable (a b c : ColStats) (ha : ColStats.Reachable a)
    (hb : ColStats.Reachable b) (hc : ColStats.Reachable c) :
    (a.merge b).merge c = a.merge (b.merge c) := by
  obtain ⟨xs, a1, a2, rfl⟩ := ha.exists_stats_of
  obtain ⟨ys, b1, b2, rfl⟩ := hb.exists_stats_of
  obtain ⟨zs, c1, c2, rfl⟩ := hc.exists_stats_of
  rw [stats_of_merge, stats_of_merge, stats_of_merge, stats_of_merge, List.append_assoc,
    Nat.add_assoc, Nat.add_assoc]

/-! ## Claim C12 -/

/-- C12: with exact arithmetic, for every non-empty list of partial results
produced by `process_chunk` with the same `ncols`, `merge_partials` succeeds and
returns the same result (the same `rows_processed` and the same fields of every
column) for every permutation of the list; and `ColStats::merge` is commutative
and associative on the column statistics reachable from the default value by
`add_numeric`, the two counter increments and `merge`. -/
theorem merge_order_independent :
    (∀ (stold : List Char → Option (ℚ × Nat)) (ncols : Nat) (ps qs : List PartialResult),
      ps ≠ [] →
      (∀ p ∈ ps, ∃ lines worker_id, p = process_chunk stold lines ncols worker_id) →
      ps.Perm qs →
      ∃ r, merge_partials ps = some r ∧ merge_partials qs = some r) ∧
    (∀ a b : ColStats, ColStats.Reachable a → ColStats.Reachable b →
      a.merge b = b.merge a) ∧
    (∀ a b c : ColStats, ColStats.Reachable a → ColStats.Reachable b → ColStats.Reachable c →
      (a.merge b).merge c = a.merge (b.merge c)) := by
  refine ⟨?_, ColStats.merge_comm_of_reachable, ColStats.merge_assoc_of_reachable⟩
  intro stold ncols ps qs hne hps hperm
  apply merge_partials_perm ncols ps qs hne _ hperm
  intro p hp
  obtain ⟨lines, worker_id, rfl⟩ := hps p hp
  rw [process_chunk_eq]
  exact cols_of_length stold ncols lines

/-- C12 at the results of the chunks `1` and `2` in both orders, and at the
statistics after one value and after one null. -/
theorem merge_order_independent_witness :
    (∃ r,
      merge_partials
          [process_chunk stold_dec [['1']] 1 "a", process_chunk stold_dec [['2']] 1 "b"]
        = some r ∧
      merge_partials
          [process_chunk stold_dec [['2']] 1 "b", process_chunk stold_dec [['1']] 1 "a"]
        = some r) ∧
    (ColStats.add_numeric {} 1).merge { null_count := 1 } =
      ColStats.merge { null_count := 1 } (ColStats.add_numeric {} 1) ∧
    ((ColStats.add_numeric {} 1).merge { null_count := 1 }).merge (ColStats.add_numeric {} 2) =
      (ColStats.add_numeric {} 1).merge
        (ColStats.merge { null_count := 1 } (ColStats.add_numeric {} 2)) :=
  ⟨merge_order_independent.1 stold_dec 1
      [process_chunk stold_dec [['1']] 1 "a", process_chunk stold_dec [['2']] 1 "b"]
      [process_chunk stold_dec [['2']] 1 "b", process_chunk stold_dec [['1']] 1 "a"]
      (by simp)
      (by
        intro p hp
        rcases List.mem_cons.mp hp with rfl | hp
        · exact ⟨_, _, rfl⟩
        · rcases List.mem_cons.mp hp with rfl | hp
          · exact ⟨_, _, rfl⟩
          · cases hp)
      (List.Perm.swap _ _ _),
    merge_order_independent.2.1 _ _
      (ColStats.Reachable.add_numeric _ 1 ColStats.Reachable.init)
      (ColStats.Reachable.null _ ColStats.Reachable.init),
    merge_order_independent.2.2 _ _ _
      (ColStats.Reachable.add_numeric _ 1 ColStats.Reachable.init)
      (ColStats.Reachable.null _ ColStats.Reachable.init)
      (ColStats.Reachable.add_numeric _ 2 ColStats.Reachable.init)⟩

/-! ## Claim C13 -/

theorem list_min_eq_minimum (xs : List ℚ) : list_min xs = xs.minimum := by
  induction xs with
  | nil => rfl
  | cons x xs ih =>
    rw [List.minimum_cons, ← ih]
    rfl

theorem list_max_eq_maximum (xs : List ℚ) : list_max xs = xs.maximum := by
  induction xs with
  | nil => rfl
  | cons x xs ih =>
    rw [List.maximum_cons, ← ih]
    rfl

theorem process_chunk_getElem? (stold : List Char → Option (ℚ × Nat))
    (lines : List (List Char)) (ncols : Nat) (worker_id : String) (c : Nat) (hc : c < ncols) :
    (process_chunk stold lines ncols worker_id).cols[c]? =
      some (summary stold (column c lines)) := by
  rw [process_chunk_eq]
  simp [cols_of, List.getElem?_range hc]

/-- C13: with exact arithmetic, for every list of lines and every column
`c < ncols` of `process_chunk(lines, ncols)`, where the cell of a row is its
`c`-th field or the empty text when the row is shorter: `count` is the number
of rows whose cell is accepted by `is_number`, `null_count` the number of rows
whose cell is empty, `non_numeric` the number of the remaining rows, `sum`,
`min_val` and `max_val` are the sum, the minimum and the maximum of the
accepted values, and the Welford mean is `sum / count` when `count > 0`.  With
three columns and the rows `1,2,x`, `,5,y`, `3,,z`, column 0 has `count = 2`,
`null_count = 1`, `non_numeric = 0`, `sum = 4`, `min = 1`, `max = 3`,
`mean = 2` and `variance = 2`. -/
theorem process_chunk_column_summary :
    (∀ (stold : List Char → Option (ℚ × Nat)) (lines : List (List Char)) (ncols : Nat)
        (worker_id : String) (c : Nat), c < ncols →
      ∃ s, (process_chunk stold lines ncols worker_id).cols[c]? = some s ∧
        s.count = (column c lines).countP (fun cell => (is_number stold cell).isSome) ∧
        s.null_count = (column c lines).countP (fun cell => decide (cell = [])) ∧
        s.non_numeric = (column c lines).countP
          (fun cell => decide (cell ≠ [] ∧ is_number stold cell = none)) ∧
        s.count + s.null_count + s.non_numeric = lines.length ∧
        s.sum = (numeric_values stold (column c lines)).sum ∧
        s.min_val = (numeric_values stold (column c lines)).minimum ∧
        s.max_val = (numeric_values stold (column c lines)).maximum ∧
        s.w.n = s.count ∧
        (0 < s.count → s.w.mean = s.sum / (s.count : ℚ))) ∧
    (∃ s,
      (process_chunk stold_dec
          [['1', ',', '2', ',', 'x'], [',', '5', ',', 'y'], ['3', ',', ',', 'z']] 3 "").cols[0]?
        = some s ∧
      s.count = 2 ∧ s.null_count = 1 ∧ s.non_numeric = 0 ∧ s.sum = 4 ∧
      s.min_val = ((1 : ℚ) : WithTop ℚ) ∧ s.max_val = ((3 : ℚ) : WithBot ℚ) ∧
      s.w.mean = 2 ∧ s.w.variance = 2) := by
  constructor
  · intro stold lines ncols worker_id c hc
    refine ⟨_, process_chunk_getElem? stold lines ncols worker_id c hc, ?_, ?_, ?_, ?_, rfl,
      list_min_eq_minimum _, list_max_eq_maximum _, ?_, ?_⟩
    · simp only [summary, numeric_values]
      exact List.length_filterMap_eq_countP _ _
    · simp only [summary]
      apply List.countP_congr
      intro cell _
      cases cell <;> simp
    · simp only [summary]
      apply List.countP_congr
      intro cell _
      cases cell <;> simp
    · have := summary_total stold (column c lines)
      simpa [column] using this
    · exact (Welford.ofList_moments _).1
    · intro hpos
      have hne : numeric_values stold (column c lines) ≠ [] := by
        intro e
        simp [summary, e] at hpos
      exact Welford.ofList_mean _ hne
  · refine ⟨ColStats.mk 2 1 0 4 ((1 : ℚ) : WithTop ℚ) ((3 : ℚ) : WithBot ℚ) (Welford.mk 2 2 2),
      by decide!, rfl, rfl, rfl, rfl, rfl, rfl, rfl, ?_⟩
    norm_num [Welford.variance]

/-- C13 at two columns, the rows `7,a` and `,8`, column 1. -/
theorem process_chunk_column_summary_witness :
    ∃ s, (process_chunk stold_dec [['7', ',', 'a'], [',', '8']] 2 "").cols[1]? = some s ∧
      s.count = (column 1 [['7', ',', 'a'], [',', '8']]).countP
        (fun cell => (is_number stold_dec cell).isSome) ∧
      s.null_count = (column 1 [['7', ',', 'a'], [',', '8']]).countP
        (fun cell => decide (cell = [])) ∧
      s.non_numeric = (column 1 [['7', ',', 'a'], [',', '8']]).countP
        (fun cell => decide (cell ≠ [] ∧ is_number stold_dec cell = none)) ∧
      s.count + s.null_count + s.non_numeric = [['7', ',', 'a'], [',', '8']].length ∧
      s.sum = (numeric_values stold_dec (column 1 [['7', ',', 'a'], [',', '8']])).sum ∧
      s.min_val = (numeric_values stold_dec (column 1 [['7', ',', 'a'], [',', '8']])).minimum ∧
      s.max_val = (numeric_values stold_dec (column 1 [['7', ',', 'a'], [',', '8']])).maximum ∧
      s.w.n = s.count ∧
      (0 < s.count → s.w.mean = s.sum / (s.count : ℚ)) :=
  process_chunk_column_summary.1 stold_dec [['7', ',', 'a'], [',', '8']] 2 "" 1 (by decide)

/-! ## Claim C14 -/

/-- The loop of the split, started at row index `n`: chunk `j` receives, in
order, the rows read whose index is `j` modulo `k`. -/
theorem split_loop_getElem? (k : Nat) (ls : List (List Char)) (n : Nat)
    (chunks : List (List (List Char))) (j : Nat) :
    ((ls.enumFrom n).foldl
        (fun chunks il => chunks.modify (fun ch => ch ++ [il.2]) (il.1 % k)) chunks)[j]? =
      (chunks[j]?).map fun ch =>
        ch ++ ((ls.enumFrom n).filter fun il => il.1 % k = j).map fun il => il.2 := by
  induction ls generalizing n chunks with
  | nil => simp
  | cons l ls ih =>
    simp only [List.enumFrom_cons, List.foldl_cons]
    rw [ih, List.getElem?_modify]
    cases hj : chunks[j]? with
    | none => rfl
    | some ch =>
      by_cases hm : n % k = j
      · simp [hm, List.filter_cons]
      · simp [hm, List.filter_cons]

theorem split_chunks_getElem? (k : Nat) (rows : List (List Char)) (j : Nat) (hj : j < k) :
    (split_chunks k rows)[j]? = some (partition_rows k j rows) := by
  unfold split_chunks partition_rows List.enum
  rw [split_loop_getElem?]
  simp [List.getElem?_replicate, hj]

theorem partition_rows_eq_nil (k j : Nat) (rows : List (List Char)) (h1 : rows.length ≤ j)
    (h2 : j < k) : partition_rows k j rows = [] := by
  unfold partition_rows
  rw [List.map_eq_nil_iff, List.filter_eq_nil_iff]
  intro il hil
  have hlt : il.1 < rows.length := List.fst_lt_of_mem_enum hil
  have hmod : il.1 % k = il.1 := Nat.mod_eq_of_lt (by omega)
  simp only [decide_eq_true_eq, hmod]
  omega

/-- C14: a requested worker count `<= 0` is replaced by `1` and a positive one
is kept, so the effective `k` is at least `1`; for every list of rows and every
`k >= 1` the split produces exactly `k` partitions, partition `j` holds exactly
the rows whose index `i` satisfies `i mod k = j`, in increasing index order, the
partitions together are a permutation of the rows, and the partitions with
index at or above the number of rows are empty. -/
theorem partition_policy :
    (∀ w : Int, 1 ≤ clamp_workers w ∧ (w ≤ 0 → clamp_workers w = 1) ∧
      (0 < w → (clamp_workers w : Int) = w)) ∧
    (∀ (k : Nat) (rows : List (List Char)), 1 ≤ k →
      (split_chunks k rows).length = k ∧
      (∀ j, j < k → (split_chunks k rows)[j]? = some (partition_rows k j rows)) ∧
      (split_chunks k rows).flatten.Perm rows ∧
      (∀ j, rows.length ≤ j → j < k → (split_chunks k rows)[j]? = some [])) := by
  constructor
  · intro w
    unfold clamp_workers
    by_cases hw : w ≤ 0
    · simp [hw]
    · have hpos : 0 < w := by omega
      simp only [hw, if_false]
      refine ⟨by omega, fun h => h.elim, fun _ => Int.toNat_of_nonneg hpos.le⟩
  · intro k rows hk
    refine ⟨split_chunks_length k hk rows, fun j hj => split_chunks_getElem? k rows j hj,
      split_chunks_perm k hk rows, ?_⟩
    intro j h1 h2
    rw [split_chunks_getElem? k rows j h2, partition_rows_eq_nil k j rows h1 h2]

/-- C14 at the requested counts `-2` and `3`, and at three partitions of the
four rows `a`, `b`, `c`, `d` and five partitions of the two rows `a`, `b`. -/
theorem partition_policy_witness :
    clamp_workers (-2) = 1 ∧ (clamp_workers 3 : Int) = 3 ∧
    ((split_chunks 3 [['a'], ['b'], ['c'], ['d']]).length = 3 ∧
      (∀ j, j < 3 → (split_chunks 3 [['a'], ['b'], ['c'], ['d']])[j]? =
        some (partition_rows 3 j [['a'], ['b'], ['c'], ['d']])) ∧
      (split_chunks 3 [['a'], ['b'], ['c'], ['d']]).flatten.Perm [['a'], ['b'], ['c'], ['d']] ∧
      (∀ j, [['a'], ['b'], ['c'], ['d']].length ≤ j → j < 3 →
        (split_chunks 3 [['a'], ['b'], ['c'], ['d']])[j]? = some [])) ∧
    (split_chunks 5 [['a'], ['b']])[4]? = some [] :=
  ⟨(partition_policy.1 (-2)).2.1 (by decide), (partition_policy.1 3).2.2 (by decide),
    partition_policy.2 3 [['a'], ['b'], ['c'], ['d']] (by decide),
    (partition_policy.2 5 [['a'], ['b']] (by decide)).2.2.2 4 (by decide) (by decide)⟩

/-! ## Claim C15 -/

theorem Welford.merge_initial_state (w : Welford) : w.merge {} = w := by
  simp [Welford.merge]

/-- Merging the default statistics into any statistics changes nothing. -/
theorem ColStats.merge_default (s : ColStats) : s.merge {} = s := by
  simp [ColStats.merge, Welford.merge_initial_state]

/-- Merging reachable statistics into the default statistics gives them back. -/
theorem ColStats.default_merge (s : ColStats) (h : ColStats.Reachable s) :
    ColStats.merge {} s = s := by
  obtain ⟨xs, a, b, rfl⟩ := h.exists_stats_of
  rw [← stats_of_nil, stats_of_merge]
  simp

theorem merge_cols_total_replicate_default (ncols m : Nat) (agg : List ColStats) :
    merge_cols_total ncols agg (List.replicate m {}) = agg := by
  apply List.ext_getElem?
  intro i
  unfold merge_cols_total
  rw [foldl_modify_range_getElem?
    (fun i (a : ColStats) => a.merge ((List.replicate m ({} : ColStats)).getD i {}))]
  have hd : (List.replicate m ({} : ColStats)).getD i {} = {} := by
    rw [List.getD_eq_getElem?_getD, List.getElem?_replicate]
    by_cases h : i < m <;> simp [h]
  by_cases hi : i < ncols
  · rw [if_pos hi, hd]
    cases agg[i]? <;> simp [ColStats.merge_default]
  · rw [if_neg hi]

/-- The reducer step with the result of an empty chunk changes nothing. -/
theorem merge_step_total_empty (stold : List Char → Option (ℚ × Nat)) (ncols m : Nat)
    (worker_id : String) (agg : PartialResult) :
    merge_step_total ncols agg (process_chunk stold [] m worker_id) = agg := by
  simp [merge_step_total, process_chunk, merge_cols_total_replicate_default]

theorem merge_cols_total_default_reachable (cols : List ColStats)
    (h : ∀ s ∈ cols, ColStats.Reachable s) :
    merge_cols_total cols.length (List.replicate cols.length {}) cols = cols := by
  apply List.ext_getElem?
  intro i
  unfold merge_cols_total
  rw [foldl_modify_range_getElem? (fun i (a : ColStats) => a.merge (cols.getD i {}))]
  by_cases hi : i < cols.length
  · rw [if_pos hi, List.getElem?_replicate, if_pos hi, List.getD_eq_getElem?_getD,
      List.getElem?_eq_getElem hi]
    simp [ColStats.default_merge _ (h _ (List.getElem_mem hi))]
  · rw [if_neg hi, List.getElem?_replicate, if_neg hi, List.getElem?_eq_none (by omega)]

/-- C15, as amended: `process_chunk` on zero lines returns `rows_processed = 0`
and `ncols` columns equal to the default statistics (counts `0`, sum `0`, min
`+infinity`, max `-infinity`, `n = 0`, `mean = 0`, `M2 = 0`); merging the default
value into any `Welford` or `ColStats` leaves every field unchanged, and merging
a reachable `ColStats` into the default value yields that `ColStats`; hence
inserting the result of an empty partition anywhere in a non-empty list of
partial results with `ncols` columns does not change the result of
`merge_partials`, and `merge_partials` of a one-element list with reachable
columns returns that element's column statistics and `rows_processed`. -/
theorem empty_partition_identity :
    (∀ (stold : List Char → Option (ℚ × Nat)) (ncols : Nat) (worker_id : String),
      (process_chunk stold [] ncols worker_id).rows_processed = 0 ∧
      (process_chunk stold [] ncols worker_id).cols =
        List.replicate ncols (ColStats.mk 0 0 0 0 ⊤ ⊥ (Welford.mk 0 0 0))) ∧
    (∀ w : Welford, w.merge (Welford.mk 0 0 0) = w) ∧
    (∀ s : ColStats, s.merge (ColStats.mk 0 0 0 0 ⊤ ⊥ (Welford.mk 0 0 0)) = s) ∧
    (∀ s : ColStats, ColStats.Reachable s →
      ColStats.merge (ColStats.mk 0 0 0 0 ⊤ ⊥ (Welford.mk 0 0 0)) s = s) ∧
    (∀ (stold : List Char → Option (ℚ × Nat)) (ncols : Nat) (worker_id : String)
        (l1 l2 : List PartialResult),
      l1 ++ l2 ≠ [] → (∀ p ∈ l1 ++ l2, p.cols.length = ncols) →
      ∃ r, merge_partials (l1 ++ l2) = some r ∧
        merge_partials (l1 ++ process_chunk stold [] ncols worker_id :: l2) = some r) ∧
    (∀ p : PartialResult, (∀ s ∈ p.cols, ColStats.Reachable s) →
      ∃ r, merge_partials [p] = some r ∧ r.cols = p.cols ∧
        r.rows_processed = p.rows_processed) := by
  refine ⟨?_, Welford.merge_initial_state, ColStats.merge_default, ColStats.default_merge, ?_, ?_⟩
  · intro stold ncols worker_id
    exact ⟨rfl, rfl⟩
  · intro stold ncols worker_id l1 l2 hne hlen
    have hne2 : l1 ++ process_chunk stold [] ncols worker_id :: l2 ≠ [] := by simp
    have hlen2 : ∀ p ∈ l1 ++ process_chunk stold [] ncols worker_id :: l2,
        p.cols.length = ncols := by
      intro p hp
      rcases List.mem_append.mp hp with h | h
      · exact hlen p (List.mem_append_left _ h)
      · rcases List.mem_cons.mp h with rfl | h
        · simp [process_chunk]
        · exact hlen p (List.mem_append_right _ h)
    rw [merge_partials_of_ne_nil ncols _ hne hlen, merge_partials_of_ne_nil ncols _ hne2 hlen2]
    refine ⟨_, rfl, ?_⟩
    simp only [List.foldl_append, List.foldl_cons, merge_step_total_empty]
  · intro p hp
    rw [merge_partials_of_ne_nil p.cols.length [p] (by simp) (by simp)]
    refine ⟨_, rfl, ?_, ?_⟩
    · simp only [List.foldl_cons, List.foldl_nil, merge_step_total]
      exact merge_cols_total_default_reachable p.cols hp
    · simp [merge_step_total]

/-- C15 as amended, at the default statistics merged into statistics holding
one value, at an empty one-column result inserted after a one-column result,
and at a one-element list. -/
theorem empty_partition_identity_witness :
    ColStats.merge (ColStats.mk 0 0 0 0 ⊤ ⊥ (Welford.mk 0 0 0)) (ColStats.add_numeric {} 5) =
      ColStats.add_numeric {} 5 ∧
    (∃ r, merge_partials ([process_chunk stold_dec [['1']] 1 "a"] ++ []) = some r ∧
      merge_partials
          ([process_chunk stold_dec [['1']] 1 "a"] ++ process_chunk stold_dec [] 1 "b" :: [])
        = some r) ∧
    (∃ r, merge_partials [process_chunk stold_dec [['1']] 1 "a"] = some r ∧
      r.cols = (process_chunk stold_dec [['1']] 1 "a").cols ∧
      r.rows_processed = (process_chunk stold_dec [['1']] 1 "a").rows_processed) :=
  ⟨empty_partition_identity.2.2.2.1 _
      (ColStats.Reachable.add_numeric _ 5 ColStats.Reachable.init),
    empty_partition_identity.2.2.2.2.1 stold_dec 1 "b"
      [process_chunk stold_dec [['1']] 1 "a"] [] (by simp)
      (by
        intro p hp
        simp only [List.append_nil, List.mem_singleton] at hp
        rw [hp, process_chunk_eq]
        exact cols_of_length _ _ _),
    empty_partition_identity.2.2.2.2.2 _ (process_chunk_reachable stold_dec [['1']] 1 "a")⟩

/-- C15 as stated fails at the empty list: `merge_partials` of no partial
result has no column, and after inserting the result of an empty partition
with one column it has one column. -/
theorem empty_partition_not_identity_on_empty_list :
    (merge_partials ([] ++ [])).map (fun r => r.cols.length) = some 0 ∧
    (merge_partials ([] ++ process_chunk stold_dec [] 1 "" :: [])).map
      (fun r => r.cols.length) = some 1 ∧
    merge_partials ([] ++ process_chunk stold_dec [] 1 "" :: []) ≠ merge_partials ([] ++ []) := by
  refine ⟨by decide, by decide, ?_⟩
  intro h
  have := congrArg (Option.map fun r => r.cols.length) h
  revert this
  decide

/-! ## Claims C16, C17, C18 -/

/-- C16: with exact arithmetic, for every `ncols`, every list of lines and
every permutation of that list, `process_chunk` returns the same result on the
permuted list: the same `rows_processed` and the same fields (`count`,
`null_count`, `non_numeric`, `sum`, `min_val`, `max_val`, `n`, `mean`, `M2`) of
every column. -/
theorem process_chunk_perm (stold : List Char → Option (ℚ × Nat)) (ncols : Nat)
    (lines permuted : List (List Char)) (worker_id : String) (h : lines.Perm permuted) :
    process_chunk stold permuted ncols worker_id = process_chunk stold lines ncols worker_id := by
  rw [process_chunk_eq, process_chunk_eq, cols_of_perm stold ncols h, h.length_eq]

/-- C16 at the rows `1,x` and `2,` in both orders. -/
theorem process_chunk_perm_witness :
    process_chunk stold_dec [['2', ','], ['1', ',', 'x']] 2 "" =
      process_chunk stold_dec [['1', ',', 'x'], ['2', ',']] 2 "" :=
  process_chunk_perm stold_dec 2 [['1', ',', 'x'], ['2', ',']] [['2', ','], ['1', ',', 'x']] ""
    (List.Perm.swap _ _ _)

/-- C17: with exact arithmetic, every Welford state reachable from the initial
state by `add` and by `merge` of reachable states has `M2 >= 0`, so `variance()`
is never negative (and `stddev()` takes the square root of a non-negative
number). -/
theorem welford_reachable_nonneg (w : Welford) (h : Welford.Reachable w) :
    0 ≤ w.M2 ∧ 0 ≤ w.variance := by
  obtain ⟨xs, rfl⟩ := h.exists_ofList
  have hM : 0 ≤ (Welford.ofList xs).M2 := by
    rw [Welford.ofList_M2]
    exact sumSqDev_nonneg _ _
  refine ⟨hM, ?_⟩
  unfold Welford.variance
  by_cases hn : (Welford.ofList xs).n > 1
  · rw [if_pos hn]
    exact div_nonneg hM (Nat.cast_nonneg _)
  · rw [if_neg hn]

/-- C17 at the state reached by adding `1` and `4` and merging the state
reached by adding `2`. -/
theorem welford_reachable_nonneg_witness :
    0 ≤ ((Welford.add (Welford.add {} 1) 4).merge (Welford.add {} 2)).M2 ∧
    0 ≤ ((Welford.add (Welford.add {} 1) 4).merge (Welford.add {} 2)).variance :=
  welford_reachable_nonneg _
    (Welford.Reachable.merge _ _
      (Welford.Reachable.add _ 4 (Welford.Reachable.add _ 1 Welford.Reachable.init))
      (Welford.Reachable.add _ 2 Welford.Reachable.init))

theorem length_mul_le_sum (m : ℚ) (xs : List ℚ) (h : ∀ x ∈ xs, m ≤ x) :
    (xs.length : ℚ) * m ≤ xs.sum := by
  induction xs with
  | nil => simp
  | cons x xs ih =>
    have h1 : m ≤ x := h x (List.mem_cons_self _ _)
    have h2 := ih fun y hy => h y (List.mem_cons_of_mem _ hy)
    simp only [List.length_cons, Nat.cast_add, Nat.cast_one, List.sum_cons]
    linarith

theorem sum_le_length_mul (m : ℚ) (xs : List ℚ) (h : ∀ x ∈ xs, x ≤ m) :
    xs.sum ≤ (xs.length : ℚ) * m := by
  induction xs with
  | nil => simp
  | cons x xs ih =>
    have h1 : x ≤ m := h x (List.mem_cons_self _ _)
    have h2 := ih fun y hy => h y (List.mem_cons_of_mem _ hy)
    simp only [List.length_cons, Nat.cast_add, Nat.cast_one, List.sum_cons]
    linarith

/-- The minimum of a non-empty list is at most its arithmetic mean. -/
theorem list_min_le_mean (xs : List ℚ) (h : xs ≠ []) :
    list_min xs ≤ ((xs.sum / (xs.length : ℚ) : ℚ) : WithTop ℚ) := by
  rw [list_min_eq_minimum]
  obtain ⟨m, hm⟩ := WithTop.ne_top_iff_exists.mp (List.minimum_ne_top_of_ne_nil h)
  have hall : ∀ x ∈ xs, m ≤ x := by
    intro x hx
    have := List.minimum_le_of_mem' hx
    rw [← hm] at this
    exact WithTop.coe_le_coe.mp this
  have hpos : (0 : ℚ) < (xs.length : ℚ) := by
    have : 0 < xs.length := List.length_pos.mpr h
    exact_mod_cast this
  rw [← hm]
  apply WithTop.coe_le_coe.mpr
  rw [le_div_iff₀ hpos]
  have := length_mul_le_sum m xs hall
  linarith

/-- The arithmetic mean of a non-empty list is at most its maximum. -/
theorem mean_le_list_max (xs : List ℚ) (h : xs ≠ []) :
    ((xs.sum / (xs.length : ℚ) : ℚ) : WithBot ℚ) ≤ list_max xs := by
  rw [list_max_eq_maximum]
  obtain ⟨m, hm⟩ := WithBot.ne_bot_iff_exists.mp (List.maximum_ne_bot_of_ne_nil h)
  have hall : ∀ x ∈ xs, x ≤ m := by
    intro x hx
    have := List.le_maximum_of_mem' hx
    rw [← hm] at this
    exact WithBot.coe_le_coe.mp this
  have hpos : (0 : ℚ) < (xs.length : ℚ) := by
    have : 0 < xs.length := List.length_pos.mpr h
    exact_mod_cast this
  rw [← hm]
  apply WithBot.coe_le_coe.mpr
  rw [div_le_iff₀ hpos]
  have := sum_le_length_mul m xs hall
  linarith

/-- C18: with exact arithmetic, every `ColStats` reachable from the default
value by `add_numeric`, the two counter increments and `merge` of reachable
values satisfies `count = w.n`; if `count = 0` then `sum = 0`,
`min_val = +infinity`, `max_val = -infinity`, `w.mean = 0` and `w.M2 = 0`; and if
`count > 0` then `sum = w.mean * count` and `min_val <= w.mean <= max_val`. -/
theorem colstats_reachable_invariant (s : ColStats) (h : ColStats.Reachable s) :
    s.count = s.w.n ∧
    (s.count = 0 →
      s.sum = 0 ∧ s.min_val = ⊤ ∧ s.max_val = ⊥ ∧ s.w.mean = 0 ∧ s.w.M2 = 0) ∧
    (0 < s.count →
      s.sum = s.w.mean * (s.count : ℚ) ∧ s.min_val ≤ (s.w.mean : WithTop ℚ) ∧
        (s.w.mean : WithBot ℚ) ≤ s.max_val) := by
  obtain ⟨xs, a, b, rfl⟩ := h.exists_stats_of
  obtain ⟨hn, hm, _⟩ := Welford.ofList_moments xs
  refine ⟨hn.symm, ?_, ?_⟩
  · intro h0
    have hx : xs = [] := List.length_eq_zero.mp h0
    subst hx
    simp [stats_of, list_min, list_max, Welford.ofList]
  · intro hpos
    have hne : xs ≠ [] := List.length_pos.mp hpos
    simp only [stats_of]
    refine ⟨?_, ?_, ?_⟩
    · rw [← hm]
      ring
    · rw [Welford.ofList_mean xs hne]
      exact list_min_le_mean xs hne
    · rw [Welford.ofList_mean xs hne]
      exact mean_le_list_max xs hne

/-- C18 at the statistics reached by adding `1` and merging the statistics
reached by adding `3`, and at the default statistics merged with themselves. -/
theorem colstats_reachable_invariant_witness :
    (((ColStats.add_numeric {} 1).merge (ColStats.add_numeric {} 3)).sum =
        ((ColStats.add_numeric {} 1).merge (ColStats.add_numeric {} 3)).w.mean *
          (((ColStats.add_numeric {} 1).merge (ColStats.add_numeric {} 3)).count : ℚ) ∧
      ((ColStats.add_numeric {} 1).merge (ColStats.add_numeric {} 3)).min_val ≤
        (((ColStats.add_numeric {} 1).merge (ColStats.add_numeric {} 3)).w.mean : WithTop ℚ) ∧
      ((((ColStats.add_numeric {} 1).merge (ColStats.add_numeric {} 3)).w.mean : ℚ) : WithBot ℚ) ≤
        ((ColStats.add_numeric {} 1).merge (ColStats.add_numeric {} 3)).max_val) ∧
    ((ColStats.merge {} {}).sum = 0 ∧ (ColStats.merge {} {}).min_val = ⊤ ∧
      (ColStats.merge {} {}).max_val = ⊥ ∧ (ColStats.merge {} {}).w.mean = 0 ∧
      (ColStats.merge {} {}).w.M2 = 0) :=
  ⟨(colstats_reachable_invariant _
      (ColStats.Reachable.merge _ _
        (ColStats.Reachable.add_numeric _ 1 ColStats.Reachable.init)
        (ColStats.Reachable.add_numeric _ 3 ColStats.Reachable.init))).2.2 (by decide),
    (colstats_reachable_invariant _
      (ColStats.Reachable.merge _ _ ColStats.Reachable.init ColStats.Reachable.init)).2.1
      (by decide)⟩

/-! ## Claim C19 -/

/-- The inner loop of the reducer fails when `p` has fewer than `ncols`
columns: the model reports every read past the end of `p`. -/
theorem merge_cols_eq_none (ncols : Nat) (agg p : List ColStats) (h : p.length < ncols) :
    merge_cols ncols agg p = none := by
  unfold merge_cols
  induction ncols with
  | zero => omega
  | succ n ih =>
    rw [List.range_succ, List.foldlM_append]
    by_cases hn : p.length < n
    · rw [ih hn]
      rfl
    · have hle : n ≤ p.length := by omega
      have hsome := merge_cols_eq n agg p hle
      unfold merge_cols at hsome
      rw [hsome]
      have hget : p[n]? = none := List.getElem?_eq_none (by omega)
      simp [hget]

/-- The inner loop of the reducer succeeds exactly when every read of `p` is in
bounds. -/
theorem merge_cols_isSome_iff (ncols : Nat) (agg p : List ColStats) :
    (merge_cols ncols agg p).isSome = true ↔ ncols ≤ p.length := by
  constructor
  · intro h
    by_contra hlt
    rw [merge_cols_eq_none ncols agg p (by omega)] at h
    cases h
  · intro h
    rw [merge_cols_eq ncols agg p h]
    rfl

theorem foldl_merge_step_total_length (ncols : Nat) (ps : List PartialResult)
    (agg : PartialResult) (h : agg.cols.length = ncols) :
    (ps.foldl (merge_step_total ncols) agg).cols.length = ncols := by
  induction ps generalizing agg with
  | nil => exact h
  | cons p ps ih =>
    apply ih
    simp [merge_step_total, merge_cols_total_length, h]

/-- C19: `process_chunk(lines, ncols)` always returns exactly `ncols` columns;
for every non-empty list of partial results that all have `ncols` columns,
every read `p.cols[i]` of the inner loop of `merge_partials` is in bounds, so
`merge_partials` returns a result, and the result has exactly `ncols` columns;
with the clamped worker count the list of partial results of `main` is not
empty and the merged result has `ncols` columns, so the report loop over
`c < ncols` reads in bounds; and for the empty list `merge_partials` returns
`rows_processed = 0` and no column. -/
theorem reducer_index_safety :
    (∀ (stold : List Char → Option (ℚ × Nat)) (lines : List (List Char)) (ncols : Nat)
        (worker_id : String), (process_chunk stold lines ncols worker_id).cols.length = ncols) ∧
    (∀ (ncols : Nat) (partials : List PartialResult), partials ≠ [] →
      (∀ p ∈ partials, p.cols.length = ncols) →
      (∀ p ∈ partials, ∀ agg, (merge_cols ncols agg p.cols).isSome = true) ∧
      ∃ r, merge_partials partials = some r ∧ r.cols.length = ncols) ∧
    (∀ (stold : List Char → Option (ℚ × Nat)) (workers : Int) (ncols : Nat)
        (lines : List (List Char)),
      run_workers stold (clamp_workers workers) ncols lines ≠ [] ∧
      ∃ r, aggregate stold (clamp_workers workers) ncols lines = some r ∧
        r.cols.length = ncols ∧ ∀ c, c < ncols → ∃ s, r.cols[c]? = some s) ∧
    merge_partials [] = some (PartialResult.mk [] 0 "") := by
  refine ⟨?_, ?_, ?_, rfl⟩
  · intro stold lines ncols worker_id
    rw [process_chunk_eq]
    exact cols_of_length stold ncols lines
  · intro ncols partials hne hlen
    constructor
    · intro p hp agg
      exact (merge_cols_isSome_iff ncols agg p.cols).mpr (hlen p hp).ge
    · rw [merge_partials_of_ne_nil ncols partials hne hlen]
      exact ⟨_, rfl, foldl_merge_step_total_length ncols partials _ (by simp)⟩
  · intro stold workers ncols lines
    have hk : 1 ≤ clamp_workers workers := by
      unfold clamp_workers
      by_cases hw : workers ≤ 0
      · simp [hw]
      · simp only [hw, if_false]
        omega
    constructor
    · intro h
      have := congrArg List.length h
      simp [run_workers] at this
      omega
    · obtain ⟨r, hr, hc, _⟩ := aggregate_eq stold (clamp_workers workers) ncols lines hk
      have hlen : r.cols.length = ncols := by rw [hc]; exact cols_of_length stold ncols lines
      refine ⟨r, hr, hlen, ?_⟩
      intro c hc2
      exact ⟨r.cols[c], List.getElem?_eq_getElem (by omega)⟩

/-- C19 at two partial results with one column each. -/
theorem reducer_index_safety_witness :
    (∀ p ∈ [PartialResult.mk [ColStats.add_numeric {} 1] 1 "a", PartialResult.mk [{}] 0 "b"],
      ∀ agg, (merge_cols 1 agg p.cols).isSome = true) ∧
    ∃ r,
      merge_partials [PartialResult.mk [ColStats.add_numeric {} 1] 1 "a", PartialResult.mk [{}] 0 "b"]
        = some r ∧
      r.cols.length = 1 :=
  reducer_index_safety.2.1 1
    [PartialResult.mk [ColStats.add_numeric {} 1] 1 "a", PartialResult.mk [{}] 0 "b"]
    (by simp) (by simp)

end DistributedCsv
